import Mathlib

set_option maxRecDepth 1000000

/-!
Verification of the 0-openclaw proof-carrying message gateway.

This file shallowly embeds the core of the Rust sources (graph interpreter,
session manager, proof generator, skill verifier and registry) in Lean 4 and
settles the frozen claims C1-C10 about them.

Modelling conventions, used consistently below:
* Machine bytes are `Nat` values below 256; byte strings are `List Nat`.
* Rust `HashMap` is modelled as a lookup function together with, where the
  source iterates over a map, an explicit key list in insertion order.  The
  iteration order of a real `HashMap` is seed-dependent; wherever that order
  is observable (serialization of `Value::Map`), the embedding takes the
  order as an explicit parameter.
* `f32`/`f64` arithmetic is idealised as exact rational arithmetic (`ℚ`);
  the byte-level IEEE-754 encoding used by the sign message is modelled
  separately as an encoding function on `ℚ`.
* Fallible Rust functions returning `Result` are embedded with `Except`.
-/

namespace Zeroclaw

/-! ## Bytes and SHA-256 (the `sha2` crate as used through `ContentHash`) -/

/-- A byte is a natural number; all produced bytes are `< 256`. -/
abbrev Byte := Nat

/-- 2^32 - 1, the 32-bit mask. -/
def mask32 : Nat := 4294967295

/-- Right rotation of a 32-bit word. -/
def rotr (n x : Nat) : Nat :=
  ((x >>> n) ||| (x <<< (32 - n))) &&& mask32

/-- Big-endian bytes of a 32-bit word. -/
def be32 (x : Nat) : List Byte :=
  [(x >>> 24) &&& 255, (x >>> 16) &&& 255, (x >>> 8) &&& 255, x &&& 255]

/-- Big-endian bytes of a 64-bit word. -/
def be64 (x : Nat) : List Byte :=
  [(x >>> 56) &&& 255, (x >>> 48) &&& 255, (x >>> 40) &&& 255,
   (x >>> 32) &&& 255, (x >>> 24) &&& 255, (x >>> 16) &&& 255,
   (x >>> 8) &&& 255, x &&& 255]

/-- The SHA-256 round constants. -/
def shaK : List Nat :=
  [1116352408, 1899447441, 3049323471, 3921009573, 961987163, 1508970993,
   2453635748, 2870763221, 3624381080, 310598401, 607225278, 1426881987,
   1925078388, 2162078206, 2614888103, 3248222580, 3835390401, 4022224774,
   264347078, 604807628, 770255983, 1249150122, 1555081692, 1996064986,
   2554220882, 2821834349, 2952996808, 3210313671, 3336571891, 3584528711,
   113926993, 338241895, 666307205, 773529912, 1294757372, 1396182291,
   1695183700, 1986661051, 2177026350, 2456956037, 2730485921, 2820302411,
   3259730800, 3345764771, 3516065817, 3600352804, 4094571909, 275423344,
   430227734, 506948616, 659060556, 883997877, 958139571, 1322822218,
   1537002063, 1747873779, 1955562222, 2024104815, 2227730452, 2361852424,
   2428436474, 2756734187, 3204031479, 3329325298]

/-- The SHA-256 initial hash state. -/
def shaH0 : List Nat :=
  [1779033703, 3144134277, 1013904242, 2773480762,
   1359893119, 2600822924, 528734635, 1541459225]

/-- Small sigma 0. -/
def sig0 (x : Nat) : Nat := (rotr 7 x) ^^^ (rotr 18 x) ^^^ (x >>> 3)

/-- Small sigma 1. -/
def sig1 (x : Nat) : Nat := (rotr 17 x) ^^^ (rotr 19 x) ^^^ (x >>> 10)

/-- Big sigma 0. -/
def bsig0 (x : Nat) : Nat := (rotr 2 x) ^^^ (rotr 13 x) ^^^ (rotr 22 x)

/-- Big sigma 1. -/
def bsig1 (x : Nat) : Nat := (rotr 6 x) ^^^ (rotr 11 x) ^^^ (rotr 25 x)

/-- SHA-256 padding: append `0x80`, zero bytes, and the 64-bit big-endian
bit length, reaching a multiple of 64 bytes. -/
def sha256Pad (msg : List Byte) : List Byte :=
  let len := msg.length
  let zeros := (119 - len % 64) % 64
  msg ++ [0x80] ++ List.replicate zeros 0 ++ be64 (8 * len)

/-- Split a byte string into 64-byte blocks (fuel-based structural
recursion; the fuel is an upper bound on the number of blocks). -/
def chunks64Go : Nat → List Byte → List (List Byte)
  | 0, _ => []
  | _ + 1, [] => []
  | fuel + 1, l => l.take 64 :: chunks64Go fuel (l.drop 64)

/-- Split a byte string into 64-byte blocks. -/
def chunks64 (l : List Byte) : List (List Byte) :=
  chunks64Go (l.length + 1) l

/-- Extend the 16 message words of a block to the 64-word schedule. -/
def fullSchedule (w16 : List Nat) : List Nat :=
  (List.range 48).foldl
    (fun w _ =>
      let t := w.length
      let s0 := sig0 (w.getD (t - 15) 0)
      let s1 := sig1 (w.getD (t - 2) 0)
      w ++ [(w.getD (t - 16) 0 + s0 + w.getD (t - 7) 0 + s1) % 4294967296])
    w16

/-- One SHA-256 compression round on the 8-word working state. -/
def shaRound (k w : Nat) (s : List Nat) : List Nat :=
  match s with
  | [a, b, c, d, e, f, g, h] =>
    let S1 := bsig1 e
    let ch := (e &&& f) ^^^ ((mask32 ^^^ e) &&& g)
    let t1 := (h + S1 + ch + k + w) % 4294967296
    let S0 := bsig0 a
    let maj := (a &&& b) ^^^ (a &&& c) ^^^ (b &&& c)
    let t2 := (S0 + maj) % 4294967296
    [(t1 + t2) % 4294967296, a, b, c, (d + t1) % 4294967296, e, f, g]
  | _ => s

/-- Process one 64-byte block, updating the 8-word hash state. -/
def processBlock (h : List Nat) (block : List Byte) : List Nat :=
  let w16 := (List.range 16).map fun i =>
    ((block.getD (4 * i) 0) <<< 24) ||| ((block.getD (4 * i + 1) 0) <<< 16) |||
    ((block.getD (4 * i + 2) 0) <<< 8) ||| block.getD (4 * i + 3) 0
  let ws := fullSchedule w16
  let s := (List.range 64).foldl
    (fun s i => shaRound (shaK.getD i 0) (ws.getD i 0) s) h
  (h.zip s).map fun p => (p.1 + p.2) % 4294967296

/-- SHA-256 of a byte string, as its 32 digest bytes. -/
def sha256 (msg : List Byte) : List Byte :=
  ((chunks64 (sha256Pad msg)).foldl processBlock shaH0).flatMap be32

/-- UTF-8 encoding of one character. -/
def utf8Char (c : Char) : List Byte :=
  let n := c.toNat
  if n < 0x80 then [n]
  else if n < 0x800 then
    [0xC0 ||| (n >>> 6), 0x80 ||| (n &&& 0x3F)]
  else if n < 0x10000 then
    [0xE0 ||| (n >>> 12), 0x80 ||| ((n >>> 6) &&& 0x3F), 0x80 ||| (n &&& 0x3F)]
  else
    [0xF0 ||| (n >>> 18), 0x80 ||| ((n >>> 12) &&& 0x3F),
     0x80 ||| ((n >>> 6) &&& 0x3F), 0x80 ||| (n &&& 0x3F)]

/-- UTF-8 bytes of a string (`str::as_bytes`). -/
def strBytes (s : String) : List Byte := s.data.flatMap utf8Char

/-! ## `ContentHash` (src/types.rs) -/

/-- A content hash: the 32 digest bytes of SHA-256
(`ContentHash(pub [u8; 32])`). -/
structure ContentHash where
  bytes : List Byte
  deriving DecidableEq, Repr

/-- Create a `ContentHash` from arbitrary bytes: hash them with SHA-256
(`ContentHash::from_bytes`). -/
def ContentHash.fromBytes (data : List Byte) : ContentHash :=
  ⟨sha256 data⟩

/-- Create a `ContentHash` from a string (`ContentHash::from_string`). -/
def ContentHash.fromString (s : String) : ContentHash :=
  ContentHash.fromBytes (strBytes s)

/-- The zero hash (`ContentHash::zero`). -/
def ContentHash.zero : ContentHash := ⟨List.replicate 32 0⟩

/-- The raw bytes (`ContentHash::as_bytes`). -/
def ContentHash.asBytes (h : ContentHash) : List Byte := h.bytes

/-! ## JSON values (`serde_json::Value`) and serialization

`serde_json::to_vec` produces compact JSON bytes.  Numbers: `i64` integers
print in decimal; `f64` floats are idealised as rationals and print with a
decimal point (matching the shortest round-trip form on the terminating
decimals that actually occur in this development). -/

/-- A hexadecimal digit byte (lowercase), as emitted by `serde_json`
escapes. -/
def hexDigit (d : Nat) : Byte := if d < 10 then 48 + d else 87 + d

/-- Decimal digit bytes of the fractional part of `num/den` (`num < den`),
by long division, stopping when the remainder vanishes. -/
def fracDigits : Nat → Nat → Nat → List Byte
  | 0, _, _ => []
  | _ + 1, 0, _ => []
  | fuel + 1, num, den => (48 + num * 10 / den) :: fracDigits fuel (num * 10 % den) den

/-- Decimal bytes of a natural number. -/
def natBytes (n : Nat) : List Byte := strBytes (toString n)

/-- Decimal bytes of an `i64` integer as serialized by `serde_json`. -/
def intBytes (i : Int) : List Byte :=
  if i < 0 then 45 :: natBytes i.natAbs else natBytes i.natAbs

/-- Bytes of an `f64` float (idealised as `ℚ`) as printed by `serde_json`:
sign, integer part, decimal point, fraction digits (at least one). -/
def floatBytes (q : ℚ) : List Byte :=
  let sign : List Byte := if q < 0 then [45] else []
  let n := q.num.natAbs
  let d := q.den
  let frac := n % d
  sign ++ natBytes (n / d) ++ [46] ++
    (if frac = 0 then [48] else fracDigits 80 frac d)

/-- JSON escape of one character (`serde_json` string escaping). -/
def escChar (c : Char) : List Byte :=
  let n := c.toNat
  if n = 34 then [92, 34]
  else if n = 92 then [92, 92]
  else if n = 8 then [92, 98]
  else if n = 9 then [92, 116]
  else if n = 10 then [92, 110]
  else if n = 12 then [92, 102]
  else if n = 13 then [92, 114]
  else if n < 32 then [92, 117, 48, 48, hexDigit (n >>> 4), hexDigit (n &&& 15)]
  else utf8Char c

/-- JSON string bytes: quote, escaped characters, quote. -/
def jsonStr (s : String) : List Byte := 34 :: s.data.flatMap escChar ++ [34]

/-- A `serde_json::Value` (used for node `params`, graph `metadata` and
`Constant` values of skill graphs). -/
inductive Json where
  | null
  | bool (b : Bool)
  | num (q : ℚ)
  | str (s : String)
  | arr (xs : List Json)
  | obj (kvs : List (String × Json))

/-- The empty JSON object `json!({})`. -/
def Json.empty : Json := .obj []

mutual

/-- Compact JSON bytes of a `serde_json::Value` (`serde_json::to_vec`).
Object entries serialize in the order carried by the model. -/
def Json.ser : Json → List Byte
  | .null => [110, 117, 108, 108]
  | .bool true => [116, 114, 117, 101]
  | .bool false => [102, 97, 108, 115, 101]
  | .num q => if q.den = 1 then intBytes q.num else floatBytes q
  | .str s => jsonStr s
  | .arr xs => 91 :: Json.serArr xs ++ [93]
  | .obj kvs => 123 :: Json.serObj kvs ++ [125]

/-- Comma-separated serialization of JSON array elements. -/
def Json.serArr : List Json → List Byte
  | [] => []
  | [x] => Json.ser x
  | x :: rest => Json.ser x ++ [44] ++ Json.serArr rest

/-- Comma-separated serialization of JSON object entries. -/
def Json.serObj : List (String × Json) → List Byte
  | [] => []
  | [(k, v)] => jsonStr k ++ [58] ++ Json.ser v
  | (k, v) :: rest => jsonStr k ++ [58] ++ Json.ser v ++ [44] ++ Json.serObj rest

end

/-! ## Runtime values (src/runtime/types.rs, `Value`)

`Value::Map` wraps a Rust `HashMap<String, Value>`; the model carries the
entries in the map's iteration order, because that order is observable
through `serde_json` serialization. -/

/-- A value in the 0-lang runtime (`enum Value`, `#[serde(untagged)]`). -/
inductive Value where
  | null
  | bool (b : Bool)
  | int (i : Int)
  | float (f : ℚ)
  | str (s : String)
  | bytes (bs : List Byte)
  | array (vs : List Value)
  | map (entries : List (String × Value))
  | hash (h : List Byte)
  | confidence (c : ℚ)

/-- Look up a key in the entry list of a `Value::Map`
(`HashMap::get`; first matching entry). -/
def mapGet (entries : List (String × Value)) (k : String) : Option Value :=
  (entries.find? (fun p => p.1 == k)).map (·.2)

/-- `Value::as_string` (returns the string only for `Value::String`). -/
def Value.asString : Value → Option String
  | .str s => some s
  | _ => none

/-- `Value::as_bool`. -/
def Value.asBool : Value → Option Bool
  | .bool b => some b
  | _ => none

/-- `Value::as_float`: floats as-is, ints and confidences promoted. -/
def Value.asFloat : Value → Option ℚ
  | .float f => some f
  | .int i => some (i : ℚ)
  | .confidence c => some c
  | _ => none

/-- `Value::as_int`. -/
def Value.asInt : Value → Option Int
  | .int i => some i
  | _ => none

/-- `Value::is_truthy`. -/
def Value.isTruthy : Value → Bool
  | .null => false
  | .bool b => b
  | .int i => i != 0
  | .float f => f != 0
  | .str s => !s.isEmpty
  | .bytes b => !b.isEmpty
  | .array a => !a.isEmpty
  | .map m => !m.isEmpty
  | .hash _ => true
  | .confidence c => c > 0

mutual

/-- Compact JSON bytes of a runtime `Value` (`serde_json::to_vec` on the
untagged enum): maps serialize `{` entries in iteration order `}`, byte
strings and hashes as arrays of numbers. -/
def serializeValue : Value → List Byte
  | .null => [110, 117, 108, 108]
  | .bool true => [116, 114, 117, 101]
  | .bool false => [102, 97, 108, 115, 101]
  | .int i => intBytes i
  | .float f => floatBytes f
  | .str s => jsonStr s
  | .bytes bs => 91 :: serializeByteArr bs ++ [93]
  | .array vs => 91 :: serializeValueArr vs ++ [93]
  | .map es => 123 :: serializeValueObj es ++ [125]
  | .hash h => 91 :: serializeByteArr h ++ [93]
  | .confidence c => floatBytes c

/-- Comma-separated decimal serialization of a byte sequence. -/
def serializeByteArr : List Byte → List Byte
  | [] => []
  | [b] => natBytes b
  | b :: rest => natBytes b ++ [44] ++ serializeByteArr rest

/-- Comma-separated serialization of array elements. -/
def serializeValueArr : List Value → List Byte
  | [] => []
  | [v] => serializeValue v
  | v :: rest => serializeValue v ++ [44] ++ serializeValueArr rest

/-- Comma-separated serialization of map entries, in iteration order. -/
def serializeValueObj : List (String × Value) → List Byte
  | [] => []
  | [(k, v)] => jsonStr k ++ [58] ++ serializeValue v
  | (k, v) :: rest => jsonStr k ++ [58] ++ serializeValue v ++ [44] ++ serializeValueObj rest

end

/-! ## Graphs (src/runtime/types.rs) -/

/-- A condition for routing (`struct RouteCondition`). -/
structure RouteCondition where
  input : String
  matchValue : Option String
  threshold : ℚ
  target : String
  confidence : ℚ

/-- Type of a graph node (`enum NodeType`). -/
inductive NodeType where
  | external (uri : String)
  | operation (op : String)
  | lookup (table : List (String × String)) (default : Option String)
  | route (conditions : List RouteCondition)
  | permission (action : String) (minConfidence : ℚ)
  | constant (value : Value)

/-- A node in a 0-lang graph (`struct GraphNode`). -/
structure GraphNode where
  id : String
  nodeType : NodeType
  inputs : List String
  params : Json

/-- A 0-lang graph definition (`struct Graph`). -/
structure Graph where
  name : String
  version : Nat
  description : String
  nodes : List GraphNode
  outputs : List String
  entryPoint : String
  metadata : Json

/-- Gateway errors, restricted to the variants the embedded code produces
(`GatewayError::ConfigError`, `GatewayError::ExecutionError`). -/
inductive GatewayError where
  | configError (msg : String)
  | executionError (msg : String)
  deriving DecidableEq, Repr

/-- First segment of an input reference before a dot
(`input.split('.').next().unwrap()`). -/
def headSegment (s : String) : String := String.mk (s.data.takeWhile (· ≠ '.'))

/-- Remainder of an input reference after the first dot
(`input.splitn(2, '.')` second part). -/
def tailAfterDot (s : String) : String := String.mk ((s.data.dropWhile (· ≠ '.')).drop 1)

/-- Whether a string contains a dot (`input.contains('.')`). -/
def containsDot (s : String) : Bool := s.data.any (· = '.')

/-- Whether `p` is a prefix of `s` (`str::starts_with`). -/
def strStartsWith (s p : String) : Bool := List.isPrefixOf p.data s.data

/-- Drop the first `n` characters of a string. -/
def strDrop (s : String) (n : Nat) : String := String.mk (s.data.drop n)

/-- Get a node by ID (`Graph::get_node`; the first node with that id). -/
def Graph.getNode (g : Graph) (id : String) : Option GraphNode :=
  g.nodes.find? (fun n => n.id == id)

/-! ### Topological sort (`Graph::topo_sort`, Kahn's algorithm)

The Rust `in_degree: HashMap<&str, usize>` is modelled as a lookup function
together with its key list in insertion order; its iteration order (used
once, to seed the queue) is taken to be that insertion order.  Degrees are
`Int`: decrementing a `usize` 0 in release mode wraps to a huge nonzero
value, and a negative `Int` is likewise nonzero, so the `== 0` tests
agree.  The `Vec` used as a stack is modelled with its top (the `Vec` end)
at the list head.  The loop takes fuel; `nodes.length + 1` is enough since
every id is pushed at most once (proved below). -/

/-- The in-degree map with its insertion-ordered key list. -/
structure DegMap where
  keys : List String
  deg : String → Option Int

/-- `in_degree.entry(k).or_insert(0)`. -/
def DegMap.entryOr0 (m : DegMap) (k : String) : DegMap :=
  match m.deg k with
  | some _ => m
  | none => ⟨m.keys ++ [k], fun x => if x = k then some 0 else m.deg x⟩

/-- `if let Some(d) = in_degree.get_mut(k) { *d += 1 }`. -/
def DegMap.bump (m : DegMap) (k : String) : DegMap :=
  match m.deg k with
  | some d => ⟨m.keys, fun x => if x = k then some (d + 1) else m.deg x⟩
  | none => m

/-- Build the in-degree map: first pass inserts every node id with degree
0, second pass adds one per input of each node. -/
def buildDeg (nodes : List GraphNode) : DegMap :=
  let m0 := nodes.foldl (fun m n => m.entryOr0 n.id) ⟨[], fun _ => none⟩
  nodes.foldl (fun m n => n.inputs.foldl (fun m _ => m.bump n.id) m) m0

/-- `adj.entry(from).or_insert_with(Vec::new).push(to)`. -/
def adjPush (adj : String → List String) (k v : String) : String → List String :=
  fun x => if x = k then adj k ++ [v] else adj x

/-- Build the adjacency map: for each input of each node, an edge from the
input's head segment to the node. -/
def buildAdj (nodes : List GraphNode) : String → List String :=
  nodes.foldl
    (fun adj n => n.inputs.foldl (fun adj inp => adjPush adj (headSegment inp) n.id) adj)
    (fun _ => [])

/-- One pass over the popped node's neighbors: decrement each neighbor
present in the degree map, pushing it when its degree reaches zero. -/
def relaxNeighbors (nbs : List String) (deg : String → Option Int)
    (queue : List String) : (String → Option Int) × List String :=
  nbs.foldl
    (fun p nb =>
      match p.1 nb with
      | some d =>
        let d' := d - 1
        let degNew := fun x => if x = nb then some d' else p.1 x
        if d' = 0 then (degNew, nb :: p.2) else (degNew, p.2)
      | none => p)
    (deg, queue)

/-- The Kahn worklist loop (`while let Some(node_id) = queue.pop()`). -/
def kahnLoop (g : Graph) (adj : String → List String) :
    Nat → List String → (String → Option Int) → List GraphNode → List GraphNode
  | 0, _, _, result => result
  | _ + 1, [], _, result => result
  | fuel + 1, id :: rest, deg, result =>
    let result' := match g.getNode id with
      | some n => result ++ [n]
      | none => result
    let p := relaxNeighbors (adj id) deg rest
    kahnLoop g adj fuel p.2 p.1 result'

/-- Topologically sort nodes for execution order (`Graph::topo_sort`):
Kahn's algorithm; if not all nodes are emitted, report a cycle. -/
def Graph.topoSort (g : Graph) : Except GatewayError (List GraphNode) :=
  let dm := buildDeg g.nodes
  let adj := buildAdj g.nodes
  let queue0 := (dm.keys.filter (fun k => dm.deg k == some 0)).reverse
  let result := kahnLoop g adj (g.nodes.length + 1) queue0 dm.deg []
  if result.length ≠ g.nodes.length then
    .error (.configError "Cycle detected in graph")
  else
    .ok result

/-! ## Graph interpreter (src/runtime/interpreter.rs, src/runtime/builtins.rs)

A `MapOrder` stands for the iteration order a freshly created Rust
`HashMap` will expose when serialized: the code inserts entries in program
order, and the map then iterates them in a seed-dependent permutation of
that order.  Deterministic claims must hold for every `MapOrder` that
permutes its input; the embedding threads it through node execution, which
is where the source creates such maps.

Of the ~37 built-in operations only those reached by the claims are
embedded (`Identity`, `Multiply`, `Add`, `LoadState`, `SaveState`); the
remaining lookups are not exercised by any theorem below. -/

/-- Iteration order assigned to a freshly created `HashMap`'s entries. -/
abbrev MapOrder := List (String × Value) → List (String × Value)

/-- Runtime configuration (`struct RuntimeConfig`). -/
structure RuntimeConfig where
  maxSteps : Nat
  traceEnabled : Bool
  timeoutMs : Nat

/-- `RuntimeConfig::default`: 10000 steps, tracing on, 30000 ms. -/
def RuntimeConfig.standard : RuntimeConfig := ⟨10000, true, 30000⟩

/-- A built-in operation body (`BuiltinOp::execute`): inputs and JSON
params to a value or an execution error. -/
abbrev BuiltinFn := MapOrder → List Value → Json → Except GatewayError Value

/-- `IdentityOp`: the first input unchanged, `Null` if absent. -/
def identityOp : BuiltinFn := fun _ inputs _ =>
  .ok (inputs.headD .null)

/-- `MultiplyOp`: product of the float projections of the inputs,
starting from 1.0; non-numeric inputs are skipped. -/
def multiplyOp : BuiltinFn := fun _ inputs _ =>
  .ok (.float (inputs.foldl
    (fun acc v => match v.asFloat with | some x => acc * x | none => acc) 1))

/-- `AddOp`: sum of the float projections of the inputs, starting from
0.0; non-numeric inputs are skipped. -/
def addOp : BuiltinFn := fun _ inputs _ =>
  .ok (.float (inputs.foldl
    (fun acc v => match v.asFloat with | some x => acc + x | none => acc) 0))

/-- `LoadStateOp`: ignores any state store and returns a fixed stub map
built from the session id (the source comments it as a placeholder for a
production state store). -/
def loadStateOp : BuiltinFn := fun σ inputs _ =>
  let sessionId := ((inputs.head?).bind Value.asString).getD ""
  .ok (.map (σ [("session_id", .str sessionId),
                ("trust_score", .confidence (1/2)),
                ("message_count", .int 0)]))

/-- `SaveStateOp`: ignores any state store and returns its second input
(the state value) unchanged, `Null` if absent. -/
def saveStateOp : BuiltinFn := fun _ inputs _ =>
  .ok ((inputs.get? 1).getD .null)

/-- `BuiltinRegistry::get`, restricted to the embedded operations. -/
def builtinsGet : String → Option BuiltinFn
  | "Identity" => some identityOp
  | "Multiply" => some multiplyOp
  | "Add" => some addOp
  | "LoadState" => some loadStateOp
  | "SaveState" => some saveStateOp
  | _ => none

/-- Execution context for a graph (`struct ExecutionContext`). -/
structure ExecutionContext where
  nodeValues : String → Option Value
  trace : List String
  confidence : ℚ
  steps : Nat

/-- `ExecutionContext::new`: empty values, empty trace, confidence 1.0. -/
def ExecutionContext.init : ExecutionContext :=
  ⟨fun _ => none, [], 1, 0⟩

/-- Result of graph execution (`struct ExecutionResult`). -/
structure ExecutionResult where
  outputs : String → Option Value
  trace : List String
  hash : ContentHash
  confidence : ℚ

/-- Gather input values for a node (`GraphInterpreter::gather_inputs`):
a plain id reads the node's value, `id.field` reads a field of a `Map`
value; anything missing becomes `Null`. -/
def gatherInputs (inputRefs : List String) (ctx : ExecutionContext) : List Value :=
  inputRefs.map fun r =>
    if containsDot r then
      ((ctx.nodeValues (headSegment r)).bind
        (fun v => match v with | .map m => mapGet m (tailAfterDot r) | _ => none)).getD .null
    else
      (ctx.nodeValues r).getD .null

/-- Execute a routing decision (`GraphInterpreter::execute_route`): the
first matching condition wins, scales the context confidence and yields a
`Map` with `target`, `confidence`, `matched_input`; no match yields
`Null`. -/
def executeRoute (σ : MapOrder) :
    List RouteCondition → ExecutionContext → Value × ExecutionContext
  | [], ctx => (.null, ctx)
  | c :: rest, ctx =>
    let inputValue := (ctx.nodeValues c.input).getD .null
    let isMatch :=
      match c.matchValue with
      | some mv => (inputValue.asString.map (fun s => s == mv)).getD false
      | none => if c.threshold > 0 then inputValue.isTruthy else true
    if isMatch then
      (.map (σ [("target", .str c.target),
                ("confidence", .confidence c.confidence),
                ("matched_input", .str c.input)]),
       { ctx with confidence := ctx.confidence * c.confidence })
    else
      executeRoute σ rest ctx

/-- Execute a single node (`GraphInterpreter::execute_node`). -/
def executeNode (σ : MapOrder) (inputs : String → Option Value)
    (node : GraphNode) (ctx : ExecutionContext) :
    Except GatewayError (Value × ExecutionContext) :=
  match node.nodeType with
  | .external uri =>
    let key := if strStartsWith uri "input://" then strDrop uri 8 else uri
    .ok ((inputs key).getD .null, ctx)
  | .constant v => .ok (v, ctx)
  | .operation op =>
    let inputValues := gatherInputs node.inputs ctx
    match builtinsGet op with
    | some b => (b σ inputValues node.params).map (fun v => (v, ctx))
    | none => .error (.executionError ("Unknown operation: " ++ op))
  | .lookup table default =>
    let key := ((gatherInputs node.inputs ctx).head?.bind Value.asString).getD ""
    let result :=
      match (table.find? (fun p => p.1 == key)).map (·.2) with
      | some v => v
      | none => default.getD ""
    .ok (.str result, ctx)
  | .route conditions => .ok (executeRoute σ conditions ctx)
  | .permission action minConfidence =>
    let senderConfidence := ((ctx.nodeValues "sender_confidence").bind Value.asFloat).getD (1/2)
    let granted := decide (senderConfidence ≥ minConfidence)
    let result := σ [("granted", .bool granted),
                     ("confidence", .confidence senderConfidence),
                     ("action", .str action)]
    let ctx' := { ctx with confidence :=
      if granted then ctx.confidence * senderConfidence else ctx.confidence * (1/10) }
    .ok (.map result, ctx')

/-- The node loop of `GraphInterpreter::execute`: abort when the step
budget is exhausted, otherwise run the node, record its value, extend the
trace and count the step. -/
def execNodes (σ : MapOrder) (cfg : RuntimeConfig) (inputs : String → Option Value) :
    List GraphNode → ExecutionContext → Except GatewayError ExecutionContext
  | [], ctx => .ok ctx
  | node :: rest, ctx =>
    if ctx.steps ≥ cfg.maxSteps then
      .error (.executionError "Maximum execution steps exceeded")
    else
      match executeNode σ inputs node ctx with
      | .error e => .error e
      | .ok (v, ctx1) =>
        execNodes σ cfg inputs rest
          { ctx1 with
            nodeValues := fun x => if x = node.id then some v else ctx1.nodeValues x,
            trace := ctx1.trace ++ [node.id],
            steps := ctx1.steps + 1 }

/-- The byte stream fed to the hasher by
`GraphInterpreter::compute_execution_hash`: for each trace id, the id's
bytes then the JSON serialization of its recorded value. -/
def executionFeed (ctx : ExecutionContext) : List Byte :=
  ctx.trace.foldl
    (fun acc id =>
      acc ++ strBytes id ++
        (match ctx.nodeValues id with
         | some v => serializeValue v
         | none => []))
    []

/-- `GraphInterpreter::compute_execution_hash`: finalize SHA-256 over the
fed bytes, then build a `ContentHash` from the digest with
`ContentHash::from_bytes` (which hashes its argument). -/
def computeExecutionHash (ctx : ExecutionContext) : ContentHash :=
  let digest := sha256 (executionFeed ctx)
  ContentHash.fromBytes digest

/-- Execute a graph with the given inputs (`GraphInterpreter::execute`). -/
def execute (σ : MapOrder) (cfg : RuntimeConfig) (g : Graph)
    (inputs : String → Option Value) : Except GatewayError ExecutionResult :=
  match g.topoSort with
  | .error e => .error e
  | .ok sorted =>
    match execNodes σ cfg inputs sorted ExecutionContext.init with
    | .error e => .error e
    | .ok ctx =>
      let outputs : String → Option Value :=
        fun k => if g.outputs.contains k then ctx.nodeValues k else none
      .ok ⟨outputs, ctx.trace, computeExecutionHash ctx, ctx.confidence⟩

/-- State store of the interpreter
(`GraphInterpreter.state_store: Arc<RwLock<HashMap<String, Value>>>`),
as the underlying map. -/
abbrev StateStore := String → Option Value

/-- `GraphInterpreter::load_state`: read a session's state from the
store, `Null` when absent. -/
def loadState (store : StateStore) (sessionId : String) : Value :=
  (store sessionId).getD .null

/-- `GraphInterpreter::save_state`: write a session's state into the
store. -/
def saveState (store : StateStore) (sessionId : String) (state : Value) : StateStore :=
  fun k => if k = sessionId then some state else store k

/-! ## Confidence and proof-carrying actions (src/types.rs) -/

/-- Little-endian bytes of a 32-bit word. -/
def le32 (x : Nat) : List Byte :=
  [x &&& 255, (x >>> 8) &&& 255, (x >>> 16) &&& 255, (x >>> 24) &&& 255]

/-- Little-endian bytes of a 64-bit word (`u64::to_le_bytes`). -/
def le64 (x : Nat) : List Byte :=
  [x &&& 255, (x >>> 8) &&& 255, (x >>> 16) &&& 255, (x >>> 24) &&& 255,
   (x >>> 32) &&& 255, (x >>> 40) &&& 255, (x >>> 48) &&& 255, (x >>> 56) &&& 255]

/-- Round `num/den` to the nearest integer, ties to even. -/
def roundHalfEven (num den : Nat) : Nat :=
  let q := num / den
  let r := num % den
  if 2 * r > den then q + 1
  else if 2 * r < den then q
  else if q % 2 = 0 then q else q + 1

/-- IEEE-754 binary32 bit pattern of a rational (round to nearest, ties
to even); this is where the `f32` idealised as `ℚ` meets the byte level
(`f32::to_le_bytes`). -/
def f32Bits (q : ℚ) : Nat :=
  if q = 0 then 0
  else
    let sign := if q < 0 then 2 ^ 31 else 0
    let n := q.num.natAbs
    let d := q.den
    let e : Int := (Nat.log2 ((n <<< 300) / d) : Int) - 300
    let shift : Int := 23 - e
    let num := if 0 ≤ shift then n <<< shift.toNat else n
    let den := if 0 ≤ shift then d else d <<< (-shift).toNat
    let m := roundHalfEven num den
    let em := if m = 2 ^ 24 then (e + 1, (2 : Nat) ^ 23) else (e, m)
    if em.1 > 127 then sign + 0x7F800000
    else if em.1 < -126 then sign + roundHalfEven (n <<< 149) d
    else sign + ((em.1 + 127).toNat <<< 23) + (em.2 - 2 ^ 23)

/-- The four little-endian bytes of a confidence value as an `f32`
(`confidence.value().to_le_bytes()`). -/
def f32LeBytes (q : ℚ) : List Byte := le32 (f32Bits q)

/-- Confidence score (`struct Confidence(f32)`); the reachable values
are produced by the clamping constructor. -/
structure Confidence where
  val : ℚ

/-- `Confidence::new`: clamp to [0, 1]. -/
def Confidence.new (v : ℚ) : Confidence := ⟨min (max v 0) 1⟩

/-- `Confidence::value`. -/
def Confidence.value (c : Confidence) : ℚ := c.val

/-- An outgoing message (`struct OutgoingMessage`). -/
structure OutgoingMessage where
  channelId : String
  recipientId : String
  content : String
  replyTo : Option ContentHash

/-- Actions the assistant can take (`enum Action`). -/
inductive Action where
  | sendMessage (msg : OutgoingMessage)
  | executeSkill (skillHash : ContentHash) (inputs : Json)
  | updateSession (sessionId : ContentHash) (updates : Json)
  | noOp (reason : String)

/-- Serde JSON of a `ContentHash` (newtype over `[u8; 32]`): the array of
its bytes. -/
def ContentHash.json (h : ContentHash) : Json :=
  .arr (h.bytes.map fun b => .num b)

/-- Serde JSON of an `OutgoingMessage` (derived; declared field order). -/
def OutgoingMessage.json (m : OutgoingMessage) : Json :=
  .obj [("channel_id", .str m.channelId),
        ("recipient_id", .str m.recipientId),
        ("content", .str m.content),
        ("reply_to", match m.replyTo with | some h => h.json | none => .null)]

/-- Serde JSON of an `Action` (derived; externally tagged enum). -/
def Action.json : Action → Json
  | .sendMessage m => .obj [("SendMessage", m.json)]
  | .executeSkill h i => .obj [("ExecuteSkill", .obj [("skill_hash", h.json), ("inputs", i)])]
  | .updateSession s u => .obj [("UpdateSession", .obj [("session_id", s.json), ("updates", u)])]
  | .noOp r => .obj [("NoOp", .obj [("reason", .str r)])]

/-- A Proof-Carrying Action (`struct ProofCarryingAction`). -/
structure ProofCarryingAction where
  action : Action
  sessionHash : ContentHash
  inputHash : ContentHash
  executionTrace : List ContentHash
  confidence : Confidence
  signature : List Byte
  timestamp : Nat

/-! ## Proof generator (src/gateway/proof.rs) -/

/-- Execution trace from graph evaluation (`struct ExecutionTrace`). -/
structure ExecutionTrace where
  nodes : List ContentHash
  cached : Bool
  executionTimeUs : Nat

/-- `ExecutionTrace::from_graph_execution`: hash each visited node id
string into a `ContentHash`, in trace order; the trace is not cached. -/
def ExecutionTrace.fromGraphExecution (execResult : ExecutionResult) : ExecutionTrace :=
  ⟨execResult.trace.map (fun nodeId => ContentHash.fromString nodeId), false, 0⟩

/-- `ProofGenerator::build_sign_message_static`: start from an empty
`Vec` and extend it with the serialized action, the session hash bytes,
the input hash bytes, each execution-trace hash's bytes, the f32
little-endian confidence and the u64 little-endian timestamp. -/
def buildSignMessageStatic (action : Action) (sessionHash inputHash : ContentHash)
    (executionTrace : List ContentHash) (confidence : Confidence)
    (timestamp : Nat) : List Byte :=
  let message : List Byte := []
  let message := message ++ Json.ser action.json
  let message := message ++ sessionHash.asBytes
  let message := message ++ inputHash.asBytes
  let message := executionTrace.foldl (fun m h => m ++ h.asBytes) message
  let message := message ++ f32LeBytes confidence.value
  let message := message ++ le64 timestamp
  message

/-! ## Session manager (src/gateway/session.rs)

The trust-calculation graph is normally loaded from
`graphs/core/session.0`; that file is outside the Rust sources, and the
in-source fallback `build_default_session_graph` (embedded below) is used
when it is absent.  Both the spec and the in-source default compute the
same EMA. -/

/-- Session state data (`struct SessionState`). -/
structure SessionState where
  data : List Byte
  version : Nat
  hash : ContentHash
  context : List (String × Json)

/-- The default session state: empty data, version 0, zero hash. -/
def SessionState.initial : SessionState :=
  ⟨[], 0, ContentHash.zero, []⟩

/-- A user session (`struct Session`). -/
structure Session where
  id : ContentHash
  channelId : String
  userId : String
  state : SessionState
  history : List ContentHash
  trustScore : Confidence
  createdAt : Nat
  lastActivity : Nat

/-- Session-manager configuration (`struct SessionManagerConfig`). -/
structure SessionManagerConfig where
  timeoutSeconds : Nat
  maxPerUser : Nat
  initialTrust : ℚ
  trustDecay : ℚ

/-- Session errors, restricted to the variants the embedded code
produces. -/
inductive SessionError where
  | notFound
  deriving DecidableEq, Repr

/-- `SessionManager::build_default_session_graph`: the seven-node graph
computing `new_trust = current_trust * 0.9 + action_confidence * 0.1`. -/
def buildDefaultSessionGraph : Graph :=
  { name := "session_trust"
    version := 1
    description := "Session trust calculation graph"
    nodes :=
      [⟨"current_trust", .external "input://current_trust", [], Json.empty⟩,
       ⟨"action_confidence", .external "input://action_confidence", [], Json.empty⟩,
       ⟨"alpha", .constant (.float (1/10)), [], Json.empty⟩,
       ⟨"one_minus_alpha", .constant (.float (9/10)), [], Json.empty⟩,
       ⟨"weighted_current", .operation "Multiply", ["current_trust", "one_minus_alpha"], Json.empty⟩,
       ⟨"weighted_action", .operation "Multiply", ["action_confidence", "alpha"], Json.empty⟩,
       ⟨"new_trust", .operation "Add", ["weighted_current", "weighted_action"], Json.empty⟩]
    outputs := ["new_trust"]
    entryPoint := "current_trust"
    metadata := Json.empty }

/-- The session manager (`struct SessionManager`), as the state its
operations read and write. -/
structure SessionManager where
  sessions : ContentHash → Option Session
  userSessions : String × String → Option ContentHash
  config : SessionManagerConfig
  sessionGraph : Option Graph

/-- `SessionManager::update_trust_fallback`: direct EMA with α = 0.1,
clamped through `Confidence::new`. -/
def updateTrustFallback (current actionConfidence : Confidence) : Confidence :=
  let alpha : ℚ := 1/10
  Confidence.new ((1 - alpha) * current.value + alpha * actionConfidence.value)

/-- `SessionManager::calculate_trust`: execute the session graph on the
current trust and the action confidence and read `new_trust`; on any
failure fall back to the direct EMA. -/
def calculateTrust (σ : MapOrder) (mgr : SessionManager)
    (current actionConfidence : Confidence) : Confidence :=
  match mgr.sessionGraph with
  | some graph =>
    let inputs : String → Option Value := fun k =>
      if k = "current_trust" then some (.float current.value)
      else if k = "action_confidence" then some (.float actionConfidence.value)
      else none
    match execute σ RuntimeConfig.standard graph inputs with
    | .ok execResult =>
      match execResult.outputs "new_trust" with
      | some (.float newTrust) => Confidence.new newTrust
      | _ => updateTrustFallback current actionConfidence
    | .error _ => updateTrustFallback current actionConfidence
  | none => updateTrustFallback current actionConfidence

/-- `SessionManager::update`: recompute the trust, append the PCA's
`input_hash` to the history (touching `last_activity`), apply the trust,
bump the state version and set the state hash to the hash of the
version's little-endian bytes. -/
def SessionManager.update (σ : MapOrder) (mgr : SessionManager)
    (sessionId : ContentHash) (action : ProofCarryingAction) (now : Nat) :
    Except SessionError SessionManager :=
  match mgr.sessions sessionId with
  | none => .error .notFound
  | some session =>
    let newTrust := calculateTrust σ mgr session.trustScore action.confidence
    let s1 := { session with
      history := session.history ++ [action.inputHash],
      lastActivity := now }
    let s2 := { s1 with trustScore := newTrust }
    let newVersion := s2.state.version + 1
    let s3 := { s2 with state := { s2.state with
      version := newVersion,
      hash := ContentHash.fromBytes (le64 newVersion) } }
    .ok { mgr with sessions := fun k => if k = sessionId then some s3 else mgr.sessions k }

/-! ## Skill graphs (src/skills/graph.rs) -/

/-- Safety proof attached to a skill graph (`struct SafetyProof`). -/
structure SafetyProof where
  maxSteps : Nat
  fuelBudget : Nat
  haltingProven : Bool
  memoryBound : Option Nat
  deriving DecidableEq, Repr

/-- `SafetyProof::default`. -/
def SafetyProof.standard : SafetyProof :=
  ⟨1000, 10000, false, some 1048576⟩

mutual

/-- A node in the skill graph (`enum SkillNode`). -/
inductive SkillNode where
  | input (name : String) (tensorTy : String)
  | operation (id : String) (op : Op) (inputs : List String)
  | external (id : String) (uri : String) (inputs : List String)
  | constant (id : String) (value : Json)

/-- Operations available in skill graphs (`enum Op`). -/
inductive Op where
  | identity
  | stringFormat (template : String)
  | stringConcat
  | jsonParse
  | jsonGet (path : String)
  | jsonStringify
  | conditional
  | map (body : SkillGraph)
  | filter (predicate : SkillGraph)
  | reduce (initial : Json)
  | httpGet
  | httpPost
  | wait (ms : Nat)
  | log (level : String)

/-- A skill graph (`struct SkillGraph`): name, version, description,
nodes, entry point, outputs, permissions, proofs. -/
inductive SkillGraph where
  | mk (name : String) (version : String) (description : Option String)
      (nodes : List SkillNode) (entryPoint : Option String)
      (outputs : List String) (permissions : List String)
      (proofs : List SafetyProof)

end

/-- The `name` field of a skill graph. -/
def SkillGraph.name : SkillGraph → String
  | .mk n _ _ _ _ _ _ _ => n

/-- The `version` field of a skill graph. -/
def SkillGraph.version : SkillGraph → String
  | .mk _ v _ _ _ _ _ _ => v

/-- The `description` field of a skill graph. -/
def SkillGraph.description : SkillGraph → Option String
  | .mk _ _ d _ _ _ _ _ => d

/-- The `nodes` field of a skill graph. -/
def SkillGraph.nodes : SkillGraph → List SkillNode
  | .mk _ _ _ ns _ _ _ _ => ns

/-- The `entry_point` field of a skill graph. -/
def SkillGraph.entryPoint : SkillGraph → Option String
  | .mk _ _ _ _ e _ _ _ => e

/-- The `outputs` field of a skill graph. -/
def SkillGraph.outputs : SkillGraph → List String
  | .mk _ _ _ _ _ o _ _ => o

/-- The `permissions` field of a skill graph. -/
def SkillGraph.permissions : SkillGraph → List String
  | .mk _ _ _ _ _ _ p _ => p

/-- The `proofs` field of a skill graph. -/
def SkillGraph.proofs : SkillGraph → List SafetyProof
  | .mk _ _ _ _ _ _ _ pr => pr

/-- `SkillNode::id`. -/
def SkillNode.id : SkillNode → String
  | .input n _ => n
  | .operation i _ _ => i
  | .external i _ _ => i
  | .constant i _ => i

/-- `SkillNode::inputs`. -/
def SkillNode.inputs : SkillNode → List String
  | .input _ _ => []
  | .operation _ _ is => is
  | .external _ _ is => is
  | .constant _ _ => []

/-- `SkillGraph::node_count`. -/
def SkillGraph.nodeCount (g : SkillGraph) : Nat := g.nodes.length

/-- `SkillGraph::external_uris`. -/
def SkillGraph.externalUris (g : SkillGraph) : List String :=
  g.nodes.filterMap fun n =>
    match n with
    | .external _ uri _ => some uri
    | _ => none

mutual

/-- Serde JSON of a `SkillNode` (derived; externally tagged enum with
struct variants, fields in declaration order). -/
def SkillNode.json : SkillNode → Json
  | .input n tt =>
    .obj [("Input", .obj [("name", .str n), ("tensor_type", .str tt)])]
  | .operation i op is =>
    .obj [("Operation", .obj [("id", .str i), ("op", Op.json op),
      ("inputs", .arr (is.map .str))])]
  | .external i uri is =>
    .obj [("External", .obj [("id", .str i), ("uri", .str uri),
      ("inputs", .arr (is.map .str))])]
  | .constant i v =>
    .obj [("Constant", .obj [("id", .str i), ("value", v)])]

/-- Serde JSON of an `Op`: unit variants as strings, data variants
externally tagged. -/
def Op.json : Op → Json
  | .identity => .str "Identity"
  | .stringFormat t => .obj [("StringFormat", .obj [("template", .str t)])]
  | .stringConcat => .str "StringConcat"
  | .jsonParse => .str "JsonParse"
  | .jsonGet p => .obj [("JsonGet", .obj [("path", .str p)])]
  | .jsonStringify => .str "JsonStringify"
  | .conditional => .str "Conditional"
  | .map body => .obj [("Map", .obj [("body", SkillGraph.json body)])]
  | .filter predicate => .obj [("Filter", .obj [("predicate", SkillGraph.json predicate)])]
  | .reduce initial => .obj [("Reduce", .obj [("initial", initial)])]
  | .httpGet => .str "HttpGet"
  | .httpPost => .str "HttpPost"
  | .wait ms => .obj [("Wait", .obj [("ms", .num ms)])]
  | .log level => .obj [("Log", .obj [("level", .str level)])]

/-- Serde JSON of a `SkillGraph` (derived; fields in declaration
order). -/
def SkillGraph.json : SkillGraph → Json
  | .mk n v d ns e o p pr =>
    .obj [("name", .str n),
          ("version", .str v),
          ("description", match d with | some s => .str s | none => .null),
          ("nodes", .arr (skillNodesJson ns)),
          ("entry_point", match e with | some s => .str s | none => .null),
          ("outputs", .arr (o.map .str)),
          ("permissions", .arr (p.map .str)),
          ("proofs", .arr (pr.map fun sp =>
            .obj [("max_steps", .num sp.maxSteps),
                  ("fuel_budget", .num sp.fuelBudget),
                  ("halting_proven", .bool sp.haltingProven),
                  ("memory_bound", match sp.memoryBound with
                                   | some b => .num b | none => .null)]))]

/-- JSON of a list of skill nodes. -/
def skillNodesJson : List SkillNode → List Json
  | [] => []
  | n :: rest => SkillNode.json n :: skillNodesJson rest

end

/-- `SkillGraph::serialize` (`serde_json::to_vec(self)`). -/
def SkillGraph.serialize (g : SkillGraph) : List Byte := Json.ser g.json

/-- `SkillGraph::content_hash`: SHA-256 of the canonical serialization. -/
def SkillGraph.contentHash (g : SkillGraph) : ContentHash :=
  ContentHash.fromBytes g.serialize

/-! ## Skill verifier (src/skills/verifier.rs) -/

/-- Verification warnings (`enum VerificationWarning`). -/
inductive VerificationWarning where
  | largeGraph (nodeCount : Nat)
  | potentiallyUnboundedLoop (nodeId : String)
  | externalCall (uri : String)
  | highMemoryUsage (estimatedBytes : Nat)
  | deprecatedOp (op replacement : String)
  deriving DecidableEq, Repr

/-- Verification errors (`enum VerificationError`). -/
inductive VerificationError where
  | infiniteLoop (cycle : List String)
  | unsafeOperation (op reason : String)
  | missingInput (inputName : String)
  | typeMismatch (nodeId expected found : String)
  | invalidReference (fromNode toNode : String)
  | missingPermission (required forOperation : String)
  | noOutputs
  | emptyGraph
  deriving DecidableEq, Repr

/-- Debug rendering of a string list (`{:?}` on `Vec<String>`). -/
def debugStrList (l : List String) : String :=
  "[" ++ String.intercalate ", " (l.map fun s => "\"" ++ s ++ "\"") ++ "]"

/-- `Display` for verification errors. -/
def VerificationError.display : VerificationError → String
  | .infiniteLoop cycle => "Infinite loop detected: " ++ debugStrList cycle
  | .unsafeOperation op reason => "Unsafe operation '" ++ op ++ "': " ++ reason
  | .missingInput n => "Missing required input: '" ++ n ++ "'"
  | .typeMismatch id exp fnd =>
    "Type mismatch at '" ++ id ++ "': expected " ++ exp ++ ", found " ++ fnd
  | .invalidReference f t => "Invalid reference from '" ++ f ++ "' to '" ++ t ++ "'"
  | .missingPermission req op =>
    "Missing permission '" ++ req ++ "' for operation '" ++ op ++ "'"
  | .noOutputs => "Graph has no outputs defined"
  | .emptyGraph => "Graph is empty"

/-- Result of skill verification (`struct VerificationResult`). -/
structure VerificationResult where
  safe : Bool
  warnings : List VerificationWarning
  errors : List VerificationError
  proof : Option SafetyProof

/-- `VerificationResult::pass`. -/
def VerificationResult.pass : VerificationResult :=
  ⟨true, [], [], some SafetyProof.standard⟩

/-- `VerificationResult::fail`. -/
def VerificationResult.fail (e : VerificationError) : VerificationResult :=
  ⟨false, [], [e], none⟩

/-- `VerificationResult::with_warning`. -/
def VerificationResult.withWarning (r : VerificationResult)
    (w : VerificationWarning) : VerificationResult :=
  { r with warnings := r.warnings ++ [w] }

/-- `VerificationResult::with_error`: record the error, mark unsafe and
drop any proof. -/
def VerificationResult.withError (r : VerificationResult)
    (e : VerificationError) : VerificationResult :=
  { r with safe := false, errors := r.errors ++ [e], proof := none }

/-- `VerificationResult::with_proof`: attach the proof only while the
result is still safe. -/
def VerificationResult.withProof (r : VerificationResult)
    (p : SafetyProof) : VerificationResult :=
  if r.safe then { r with proof := some p } else r

/-- The adjacency map of `SkillVerifier::find_cycle`: every node id maps
to a list; inputs naming an existing node push an edge, others are
dropped (`adj.get_mut` on a missing key). -/
def skillAdj (nodes : List SkillNode) : String → Option (List String) :=
  let base := nodes.foldl
    (fun adj n => fun x => if x = n.id then some [] else adj x)
    (fun _ => none)
  nodes.foldl
    (fun adj n =>
      n.inputs.foldl
        (fun adj inp =>
          match adj inp with
          | some deps => fun x => if x = inp then some (deps ++ [n.id]) else adj x
          | none => adj)
        adj)
    base

/-- The mutable state of the cycle DFS: visited set, recursion-stack set
and current path. -/
structure DfsState where
  visited : List String
  recStack : List String
  path : List String

/-- `SkillVerifier::dfs_cycle` (fuel-based; the fuel bounds the
recursion depth, one level per newly visited node). -/
def dfsCycle (adj : String → Option (List String)) :
    Nat → String → DfsState → Option (List String) × DfsState
  | 0, _, st => (none, st)
  | fuel + 1, node, st =>
    let st1 : DfsState :=
      ⟨st.visited ++ [node], st.recStack ++ [node], st.path ++ [node]⟩
    let res := ((adj node).getD []).foldl
      (fun (acc : Option (List String) × DfsState) nb =>
        match acc.1 with
        | some _ => acc
        | none =>
          let st := acc.2
          if ! st.visited.contains nb then
            dfsCycle adj fuel nb st
          else if st.recStack.contains nb then
            let cycleStart := (st.path.findIdx? (· = nb)).getD 0
            (some (st.path.drop cycleStart), st)
          else acc)
      (none, st1)
    match res.1 with
    | some c => (some c, res.2)
    | none =>
      (none, { res.2 with
        recStack := res.2.recStack.filter (· ≠ node),
        path := res.2.path.dropLast })

/-- `SkillVerifier::find_cycle`: DFS with a recursion stack over every
unvisited node; the first back edge yields the cycle slice of the
path. -/
def findCycle (g : SkillGraph) : Option (List String) :=
  let adj := skillAdj g.nodes
  let res := g.nodes.foldl
    (fun (acc : Option (List String) × DfsState) n =>
      match acc.1 with
      | some _ => acc
      | none =>
        if acc.2.visited.contains n.id then acc
        else dfsCycle adj (g.nodes.length + 1) n.id acc.2)
    (none, ⟨[], [], []⟩)
  res.1

/-- `SkillVerifier::check_node_safety`: `External` nodes with `http(s)`
URIs and `HttpGet`/`HttpPost` operations require the declared
permission `"network"`. -/
def checkNodeSafety (node : SkillNode) (declaredPermissions : List String) :
    Option VerificationError :=
  match node with
  | .external _ uri _ =>
    let isNetworkCall := strStartsWith uri "http://" || strStartsWith uri "https://"
    if isNetworkCall && ! declaredPermissions.contains "network" then
      some (.missingPermission "network" ("external call to " ++ uri))
    else none
  | .operation id op _ =>
    match op with
    | .httpGet | .httpPost =>
      if ! declaredPermissions.contains "network" then
        some (.missingPermission "network" ("HTTP operation at " ++ id))
      else none
    | _ => none
  | _ => none

/-- Saturating `u64` value. -/
def u64sat (n : Nat) : Nat := min n (2 ^ 64 - 1)

/-- `SkillVerifier::estimate_max_steps`: 10 steps per node, times a
100-fold multiplier per `Map`/`Filter`/`Reduce` node (saturating),
capped at 1,000,000. -/
def estimateMaxSteps (g : SkillGraph) : Nat :=
  let base := g.nodeCount * 10 % 2 ^ 64
  let multiplier := g.nodes.foldl
    (fun m n =>
      match n with
      | .operation _ op _ =>
        match op with
        | .map _ | .filter _ | .reduce _ => u64sat (m * 100)
        | _ => m
      | _ => m)
    1
  min (u64sat (base * multiplier)) 1000000

/-- `SkillVerifier::estimate_memory_bound`: 1 KB per node plus 1 MB per
external call. -/
def estimateMemoryBound (g : SkillGraph) : Nat :=
  let externalCount := (g.nodes.filter fun n =>
    match n with | .external _ _ _ => true | _ => false).length
  (g.nodeCount * 1024 + externalCount * 1024 * 1024) % 2 ^ 64

mutual

/-- `SkillVerifier::prove_halting`: scan the nodes; a `Map` or `Filter`
operation recursively requires its sub-graph to halt, everything else is
accepted. -/
def proveHalting : SkillGraph → Bool
  | .mk _ _ _ ns _ _ _ _ => proveHaltingNodes ns

/-- The node loop of `prove_halting`. -/
def proveHaltingNodes : List SkillNode → Bool
  | [] => true
  | n :: rest => proveHaltingNode n && proveHaltingNodes rest

/-- One node of `prove_halting`. -/
def proveHaltingNode : SkillNode → Bool
  | .operation _ op _ => proveHaltingOp op
  | _ => true

/-- One operation of `prove_halting`: only `Map` and `Filter` recurse. -/
def proveHaltingOp : Op → Bool
  | .map body => proveHalting body
  | .filter predicate => proveHalting predicate
  | _ => true

end

/-- `SkillVerifier::build_safety_proof`. -/
def buildSafetyProof (g : SkillGraph) : SafetyProof :=
  let maxSteps := estimateMaxSteps g
  ⟨maxSteps, maxSteps * 10 % 2 ^ 64, proveHalting g, some (estimateMemoryBound g)⟩

/-- `SkillVerifier::verify_with_graph` (and `SkillVerifier::verify`,
whose `Result` wrapper is always `Ok`): run every check, accumulate
warnings and errors, and attach a safety proof when no error occurred. -/
def verify (g : SkillGraph) : VerificationResult :=
  if g.nodes.isEmpty then VerificationResult.fail .emptyGraph
  else
    let result := VerificationResult.pass
    let result := if g.outputs.isEmpty then result.withError .noOutputs else result
    let result :=
      if g.nodeCount > 1000 then result.withWarning (.largeGraph g.nodeCount) else result
    let result :=
      match findCycle g with
      | some cycle => result.withError (.infiniteLoop cycle)
      | none => result
    let result := g.nodes.foldl
      (fun r n =>
        match checkNodeSafety n g.permissions with
        | some e => r.withError e
        | none => r)
      result
    let nodeIds := g.nodes.map SkillNode.id
    let result := g.nodes.foldl
      (fun r n =>
        n.inputs.foldl
          (fun r inp =>
            if ! nodeIds.contains inp then r.withError (.invalidReference n.id inp)
            else r)
          r)
      result
    let result := (g.externalUris).foldl
      (fun r uri => r.withWarning (.externalCall uri)) result
    if result.safe then result.withProof (buildSafetyProof g) else result

/-! ## Skill registry (src/skills/registry.rs) -/

/-- Input definition for a skill (`struct SkillInput`). -/
structure SkillInput where
  name : String
  description : String
  tensorTy : String
  required : Bool

/-- Output definition for a skill (`struct SkillOutput`). -/
structure SkillOutput where
  name : String
  description : String
  tensorTy : String

/-- Metadata about a skill (`struct SkillMetadata`). -/
structure SkillMetadata where
  name : String
  description : String
  version : String
  author : Option String
  permissions : List String
  inputs : List SkillInput
  outputs : List SkillOutput

/-- A registered skill entry (`struct SkillEntry`). -/
structure SkillEntry where
  hash : ContentHash
  metadata : SkillMetadata
  graph : SkillGraph
  verified : Bool
  builtin : Bool
  installedAt : Nat

/-- Skill errors, restricted to the variants the embedded code
produces. -/
inductive SkillError where
  | verificationFailed (msg : String)
  | alreadyInstalled (msg : String)
  | notFound (what : String)

/-- Hex string of a byte list (lowercase). -/
def toHexStr (bytes : List Byte) : String :=
  String.mk (bytes.flatMap fun b =>
    [Char.ofNat (hexDigit (b >>> 4)), Char.ofNat (hexDigit (b &&& 15))])

/-- `ContentHash`'s `Display`: the first 16 hex characters. -/
def ContentHash.displayStr (h : ContentHash) : String :=
  String.mk ((toHexStr h.bytes).data.take 16)

/-- The registry for managing skill graphs (`struct SkillRegistry`). -/
structure SkillRegistry where
  skills : ContentHash → Option SkillEntry
  nameIndex : String → Option ContentHash
  skillsDir : String

/-- An empty registry (`SkillRegistry::new`). -/
def SkillRegistry.new (dir : String) : SkillRegistry :=
  ⟨fun _ => none, fun _ => none, dir⟩

/-- `SkillRegistry::extract_metadata`. -/
def extractMetadata (g : SkillGraph) (name : String) : SkillMetadata :=
  { name := name
    description := g.description.getD "No description"
    version := g.version
    author := none
    permissions := g.permissions
    inputs := g.nodes.filterMap fun n =>
      match n with
      | .input nm tt => some ⟨nm, "", tt, true⟩
      | _ => none
    outputs := g.outputs.map fun o => ⟨o, "", "any"⟩ }

/-- `SkillRegistry::install_graph`: return the hash unchanged if it is
already installed; verify unless built-in and reject unsafe graphs;
reject a name bound to a different hash; otherwise insert into both
indexes.  Returns the result together with the registry state after the
call. -/
def installGraph (reg : SkillRegistry) (name : String) (graph : SkillGraph)
    (builtin : Bool) (now : Nat) :
    Except SkillError ContentHash × SkillRegistry :=
  let hash := graph.contentHash
  if (reg.skills hash).isSome then
    (.ok hash, reg)
  else
    let verifiedStep : Except SkillError Bool :=
      if builtin then .ok true
      else
        let result := verify graph
        if ! result.safe then
          .error (.verificationFailed
            (String.intercalate "; " (result.errors.map VerificationError.display)))
        else .ok true
    match verifiedStep with
    | .error e => (.error e, reg)
    | .ok verified =>
      let metadata := extractMetadata graph name
      let entry : SkillEntry := ⟨hash, metadata, graph, verified, builtin, now⟩
      let conflict :=
        match reg.nameIndex name with
        | some existingHash => existingHash != hash
        | none => false
      if conflict then
        (.error (.alreadyInstalled
          ("Skill '" ++ name ++ "' already installed with different content")), reg)
      else
        (.ok hash,
         { reg with
           skills := fun k => if k = hash then some entry else reg.skills k,
           nameIndex := fun k => if k = name then some hash else reg.nameIndex k })

/-- `SkillRegistry::get`. -/
def SkillRegistry.get (reg : SkillRegistry) (h : ContentHash) : Option SkillEntry :=
  reg.skills h

/-- `SkillRegistry::get_by_name`. -/
def getByName (reg : SkillRegistry) (name : String) : Option SkillEntry :=
  (reg.nameIndex name).bind reg.skills

/-- `SkillRegistry::is_installed`. -/
def isInstalled (reg : SkillRegistry) (h : ContentHash) : Bool :=
  (reg.skills h).isSome

/-- `SkillRegistry::uninstall`: built-in entries are re-inserted and
refused; otherwise remove the entry and its name binding. -/
def uninstall (reg : SkillRegistry) (hash : ContentHash) :
    Except SkillError Unit × SkillRegistry :=
  match reg.skills hash with
  | some entry =>
    if entry.builtin then
      (.error (.verificationFailed "Cannot uninstall built-in skills"), reg)
    else
      (.ok (),
       { reg with
         skills := fun k => if k = hash then none else reg.skills k,
         nameIndex := fun k => if k = entry.metadata.name then none else reg.nameIndex k })
  | none => (.error (.notFound hash.displayStr), reg)

/-- One registry operation, for stating the registry invariant over
operation sequences. -/
inductive RegOp where
  | installOp (name : String) (g : SkillGraph) (builtin : Bool) (now : Nat)
  | uninstallOp (h : ContentHash)

/-- Apply one registry operation, keeping the post-state whatever the
call returned. -/
def applyRegOp (reg : SkillRegistry) : RegOp → SkillRegistry
  | .installOp name g builtin now => (installGraph reg name g builtin now).2
  | .uninstallOp h => (uninstall reg h).2

/-- Apply a sequence of registry operations. -/
def runRegOps (reg : SkillRegistry) (ops : List RegOp) : SkillRegistry :=
  ops.foldl applyRegOp reg

/-! ## Graph-theoretic notions used to state the claims -/

/-- Edge relation of a runtime graph: `u → v` when node `v` declares an
input whose head segment is `u`. -/
def Graph.edge (g : Graph) (u v : String) : Prop :=
  ∃ n ∈ g.nodes, n.id = v ∧ u ∈ n.inputs.map headSegment

/-- A runtime graph is acyclic when no id reaches itself through a
nonempty chain of edges. -/
def Graph.Acyclic (g : Graph) : Prop :=
  ∀ v, ¬ Relation.TransGen g.edge v v

/-- Every input reference of the graph resolves to an existing node id. -/
def Graph.ClosedRefs (g : Graph) : Prop :=
  ∀ n ∈ g.nodes, ∀ inp ∈ n.inputs, headSegment inp ∈ g.nodes.map GraphNode.id

/-- The node ids of the graph are distinct (the data model declares ids
unique within a graph). -/
def Graph.UniqueIds (g : Graph) : Prop :=
  (g.nodes.map GraphNode.id).Nodup

/-- Edge relation of a skill graph: `u → v` when node `v` lists `u`
among its inputs. -/
def SkillGraph.edge (g : SkillGraph) (u v : String) : Prop :=
  ∃ n ∈ g.nodes, n.id = v ∧ u ∈ n.inputs

/-- A skill graph is acyclic when no id reaches itself through a
nonempty chain of edges. -/
def SkillGraph.Acyclic (g : SkillGraph) : Prop :=
  ∀ v, ¬ Relation.TransGen g.edge v v

/-- The sub-graphs nested in `Map` bodies and `Filter` predicates. -/
def nestedBodies (g : SkillGraph) : List SkillGraph :=
  g.nodes.filterMap fun n =>
    match n with
    | .operation _ op _ =>
      match op with
      | .map b => some b
      | .filter p => some p
      | _ => none
    | _ => none

/-- Halting in the sense of the specification: the graph is acyclic and
every nested `Map.body` / `Filter.predicate` sub-graph halts,
recursively. -/
inductive SpecHalts : SkillGraph → Prop where
  | intro : ∀ {g : SkillGraph}, g.Acyclic →
      (∀ b ∈ nestedBodies g, SpecHalts b) → SpecHalts g

/-! ### Counting functions and loop invariant for the Kahn sort -/

/-- Number of inputs of the node with id `x` whose head is not in `P`. -/
def remCount (g : Graph) (P : List String) (x : String) : Nat :=
  match g.getNode x with
  | some n => (n.inputs.filter (fun inp => ! P.contains (headSegment inp))).length
  | none => 0

/-- Number of inputs of the node with id `x` whose head is `u`. -/
def headCount (g : Graph) (u x : String) : Nat :=
  match g.getNode x with
  | some n => (n.inputs.filter (fun inp => headSegment inp == u)).length
  | none => 0

/-- Total input count over the nodes with id `x`. -/
def inputSum (ns : List GraphNode) (x : String) : Nat :=
  ((ns.filter (fun n => n.id == x)).map (fun n => n.inputs.length)).sum

/-- Total count, over the nodes with id `x`, of inputs whose head is `u`. -/
def headSum (ns : List GraphNode) (u x : String) : Nat :=
  ((ns.filter (fun n => n.id == x)).map
    (fun n => (n.inputs.filter (fun inp => headSegment inp == u)).length)).sum

/-- The flag contributed to the queue for value `x`: `1` exactly when the
relax pass pushed it. -/
def pushFlag (d : Option Int) (c : Nat) : Nat :=
  match d with
  | none => 0
  | some dd => if 1 ≤ dd ∧ dd ≤ (c : Int) then 1 else 0

/-- Loop invariant of the Kahn worklist in `Graph.topoSort`: `result` holds
already-emitted nodes, `queue` the ids whose remaining in-degree dropped to
zero, and `deg` tracks, for every node id, the number of its inputs whose
head is not yet emitted. -/
structure KahnInv (g : Graph) (queue : List String) (deg : String → Option Int)
    (result : List GraphNode) : Prop where
  resultNodes : ∀ n ∈ result, g.getNode n.id = some n
  queueIds : ∀ x ∈ queue, x ∈ g.nodes.map GraphNode.id
  nodup : (result.map GraphNode.id ++ queue).Nodup
  degSome : ∀ x ∈ g.nodes.map GraphNode.id,
    deg x = some ((remCount g (result.map GraphNode.id) x : Int))
  degNone : ∀ x, x ∉ g.nodes.map GraphNode.id → deg x = none
  zeroIff : ∀ x ∈ g.nodes.map GraphNode.id,
    ((x ∈ result.map GraphNode.id ∨ x ∈ queue) ↔
      remCount g (result.map GraphNode.id) x = 0)
  ordered : ∀ (i : Nat) (v : String), (result.map GraphNode.id)[i]? = some v →
    ∀ u, headCount g u v ≠ 0 →
      ∃ j : Nat, j < i ∧ (result.map GraphNode.id)[j]? = some u

/-! ## Spec-side formulations used for refinement comparisons -/

/-- The concatenation the spec describes for the execution hash: for
each id in the trace, the id's bytes followed by the canonical JSON of
that node's recorded value. -/
def specExecutionConcat (ctx : ExecutionContext) : List Byte :=
  ctx.trace.flatMap fun id =>
    strBytes id ++
      (match ctx.nodeValues id with
       | some v => serializeValue v
       | none => [])

/-- The execution hash the claim describes: a single application of
SHA-256 to the concatenation. -/
def specExecutionHash (ctx : ExecutionContext) : ContentHash :=
  ⟨sha256 (specExecutionConcat ctx)⟩

/-- The sign message the claim describes: one concatenation with no
separators, in the claimed order. -/
def specSignMessage (action : Action) (sessionHash inputHash : ContentHash)
    (executionTrace : List ContentHash) (confidence : Confidence)
    (timestamp : Nat) : List Byte :=
  Json.ser action.json ++ sessionHash.bytes ++ inputHash.bytes ++
    executionTrace.flatMap ContentHash.bytes ++
    f32LeBytes confidence.value ++ le64 timestamp

/-- One EMA step with α = 0.1, as the spec states the trust update. -/
def emaStep (t c : ℚ) : ℚ := (9/10) * t + (1/10) * c

/-- The EMA recurrence over a sequence of confidences. -/
def emaFold (t0 : ℚ) (cs : List ℚ) : ℚ := cs.foldl emaStep t0

/-- Apply `SessionManager::update` for each PCA (with its call time) in
order, stopping at the first error. -/
def updateMany (σ : MapOrder) (mgr : SessionManager) (sid : ContentHash) :
    List (ProofCarryingAction × Nat) → Except SessionError SessionManager
  | [] => .ok mgr
  | (p, n) :: rest =>
    match SessionManager.update σ mgr sid p n with
    | .ok mgr' => updateMany σ mgr' sid rest
    | .error e => .error e

/-- The registry invariant of the claim: every present entry is verified
or built-in. -/
def RegistryInv (reg : SkillRegistry) : Prop :=
  ∀ h e, reg.skills h = some e → e.verified = true ∨ e.builtin = true

/-! ## Concrete graphs and states used by the claims' theorems -/

/-- A one-node graph whose single input reference names no node: the
graph has no cycle, yet Kahn's loop never emits the node. -/
def danglingGraph : Graph :=
  { name := "dangling", version := 1, description := ""
    nodes := [⟨"a", .operation "Identity", ["missing"], Json.empty⟩]
    outputs := ["a"], entryPoint := "a", metadata := Json.empty }

/-- A graph whose single node is a `Route` with one default condition:
executing it records a three-key `Map` value, making the serialized
execution hash depend on the map's iteration order. -/
def routeOnlyGraph : Graph :=
  { name := "route_demo", version := 1, description := ""
    nodes := [⟨"route", .route [⟨"missing_input", none, 0, "skill:help", 1⟩], [], Json.empty⟩]
    outputs := ["route"], entryPoint := "route", metadata := Json.empty }

/-- An execution context with one visited node whose value is `Null`. -/
def c2Ctx : ExecutionContext :=
  ⟨fun s => if s = "a" then some .null else none, ["a"], 1, 1⟩

/-- A two-node skill graph with a cycle (`a → b → a`). -/
def cyclicBody : SkillGraph :=
  .mk "body" "1" none
    [.operation "a" .identity ["b"], .operation "b" .identity ["a"]]
    none ["a"] [] []

/-- An otherwise well-formed skill graph containing a `Map` whose body
is the cyclic graph above. -/
def badMapSkill : SkillGraph :=
  .mk "bad" "1" none
    [.input "xs" "array", .operation "mapped" (.map cyclicBody) ["xs"]]
    none ["mapped"] [] []

/-- A graph that saves a value under a session key and loads it back
through the `SaveState`/`LoadState` builtins. -/
def stateRoundtripGraph : Graph :=
  { name := "state_roundtrip", version := 1, description := ""
    nodes :=
      [⟨"kconst", .constant (.str "session1"), [], Json.empty⟩,
       ⟨"vconst", .constant (.int 42), [], Json.empty⟩,
       ⟨"save", .operation "SaveState", ["kconst", "vconst"], Json.empty⟩,
       ⟨"load", .operation "LoadState", ["kconst", "save"], Json.empty⟩]
    outputs := ["save", "load"], entryPoint := "kconst", metadata := Json.empty }

/-- A small well-formed skill graph, used to exercise the registry. -/
def sampleSkill : SkillGraph :=
  .mk "echoish" "1" none [.input "x" "string"] (some "x") ["x"] [] []

/-- A linear three-node runtime graph (`a → b → c`), used to exercise
the topological sort. -/
def chainGraph : Graph :=
  { name := "chain", version := 1, description := ""
    nodes :=
      [⟨"a", .external "input://a", [], Json.empty⟩,
       ⟨"b", .operation "Identity", ["a"], Json.empty⟩,
       ⟨"c", .operation "Identity", ["b"], Json.empty⟩]
    outputs := ["c"], entryPoint := "a", metadata := Json.empty }

/-- A concrete session used to exercise the session manager. -/
def c4session : Session :=
  ⟨ContentHash.zero, "telegram", "user1", SessionState.initial, [],
   Confidence.new (1/2), 0, 0⟩

/-- A concrete session manager holding `c4session` under the zero hash,
with the default session graph. -/
def c4mgr : SessionManager :=
  ⟨fun h => if h = ContentHash.zero then some c4session else none,
   fun _ => none, ⟨3600, 10, 1/2, 1/100⟩, some buildDefaultSessionGraph⟩

/-- A concrete PCA with confidence 0.9. -/
def c4pca : ProofCarryingAction :=
  ⟨.noOp "t", ContentHash.zero, ContentHash.fromString "input", [],
   Confidence.new (9/10), List.replicate 64 0, 0⟩

/-- A concrete execution result with trace `["a", "b"]`. -/
def c9resA : ExecutionResult :=
  ⟨fun _ => some .null, ["a", "b"], ⟨[0]⟩, 1⟩

/-- Another execution result with the same trace but different outputs,
hash and confidence. -/
def c9resB : ExecutionResult :=
  ⟨fun _ => none, ["a", "b"], ⟨[1]⟩, 1/2⟩

/-- The registry state after installing `sampleSkill` as a builtin. -/
def c10reg : SkillRegistry :=
  (installGraph (SkillRegistry.new "graphs/skills") "echoish" sampleSkill true 0).2

/-! ## Supporting lemmas -/

/-- Folding an append over a list equals the initial value followed by
the flattened pieces. -/
lemma foldl_append_eq_flatMap (f : String → List Byte) (ts : List String)
    (init : List Byte) :
    ts.foldl (fun acc id => acc ++ f id) init = init ++ ts.flatMap f := by
  induction ts generalizing init with
  | nil => simp
  | cons t ts ih => simp [ih, List.append_assoc]

/-- The byte stream fed to the execution hasher is the concatenation the
spec describes. -/
lemma executionFeed_eq_concat (ctx : ExecutionContext) :
    executionFeed ctx = specExecutionConcat ctx := by
  unfold executionFeed specExecutionConcat
  have := foldl_append_eq_flatMap
    (fun id => strBytes id ++
      (match ctx.nodeValues id with
       | some v => serializeValue v
       | none => [])) ctx.trace []
  simp only [List.nil_append] at this
  rw [← this]
  congr 1
  funext acc id
  rw [List.append_assoc]

/-- Folding hash-byte appends equals the initial value followed by the
flattened hash bytes. -/
lemma foldl_append_hashes (l : List ContentHash) (init : List Byte) :
    l.foldl (fun m h => m ++ h.asBytes) init = init ++ l.flatMap ContentHash.bytes := by
  induction l generalizing init with
  | nil => simp
  | cons h t ih =>
    rw [List.foldl_cons, ih]
    simp [ContentHash.asBytes, List.append_assoc]

/-- Flattening well-formed hashes yields 32 bytes per hash. -/
lemma flatMap_hashes_length (tr : List ContentHash)
    (htr : ∀ h ∈ tr, h.bytes.length = 32) :
    (tr.flatMap ContentHash.bytes).length = 32 * tr.length := by
  induction tr with
  | nil => simp
  | cons h t ih =>
    simp only [List.flatMap_cons, List.length_append, List.length_cons]
    rw [htr h (by simp), ih (fun x hx => htr x (by simp [hx]))]
    ring

/-- `calculate_trust` computes the EMA with α = 0.1 (through the default
session graph when it is loaded, directly otherwise). -/
lemma calculateTrust_ema (σ : MapOrder) (mgr : SessionManager)
    (hgraph : mgr.sessionGraph = some buildDefaultSessionGraph ∨ mgr.sessionGraph = none)
    (cur act : Confidence) :
    calculateTrust σ mgr cur act = Confidence.new (emaStep cur.value act.value) := by
  rcases hgraph with h | h
  · have h1 : calculateTrust σ mgr cur act =
        calculateTrust σ { mgr with sessionGraph := some buildDefaultSessionGraph } cur act := by
      unfold calculateTrust
      rw [h]
    rw [h1]
    have h2 : calculateTrust σ { mgr with sessionGraph := some buildDefaultSessionGraph } cur act =
        Confidence.new (0 + 1 * cur.value * (9/10) + 1 * act.value * (1/10)) := rfl
    rw [h2]
    apply congrArg
    unfold emaStep
    ring
  · have h1 : calculateTrust σ mgr cur act = updateTrustFallback cur act := by
      unfold calculateTrust
      rw [h]
    rw [h1]
    show Confidence.new ((1 - 1/10) * cur.value + (1/10) * act.value) = _
    apply congrArg
    unfold emaStep
    ring

/-- Values already in the unit interval pass through the clamping
constructor unchanged. -/
lemma Confidence.value_new_of_bounds (x : ℚ) (h0 : 0 ≤ x) (h1 : x ≤ 1) :
    (Confidence.new x).value = x := by
  simp [Confidence.new, Confidence.value, max_eq_left h0, min_eq_left h1]

/-- One EMA step stays in the unit interval. -/
lemma emaStep_bounds {t c : ℚ} (ht0 : 0 ≤ t) (ht1 : t ≤ 1) (hc0 : 0 ≤ c) (hc1 : c ≤ 1) :
    0 ≤ emaStep t c ∧ emaStep t c ≤ 1 := by
  unfold emaStep
  constructor <;> nlinarith

/-- Single `update` behaviour from a state whose session graph is the
in-source default (or absent). -/
lemma update_spec (σ : MapOrder) (mgr : SessionManager)
    (hgraph : mgr.sessionGraph = some buildDefaultSessionGraph ∨ mgr.sessionGraph = none)
    (sid : ContentHash) (s : Session) (hs : mgr.sessions sid = some s)
    (pca : ProofCarryingAction) (now : Nat) :
    ∃ mgr', SessionManager.update σ mgr sid pca now = .ok mgr' ∧
      mgr'.sessionGraph = mgr.sessionGraph ∧
      ∃ s', mgr'.sessions sid = some s' ∧
        s'.history = s.history ++ [pca.inputHash] ∧
        s'.trustScore = Confidence.new (emaStep s.trustScore.value pca.confidence.value) := by
  have hlookup : ∀ (s3 : Session) (f : ContentHash → Option Session),
      (fun k => if k = sid then some s3 else f k) sid = some s3 := by
    intro s3 f; simp
  unfold SessionManager.update
  rw [hs]
  refine ⟨_, rfl, rfl, _, hlookup _ _, rfl, ?_⟩
  show calculateTrust σ mgr s.trustScore pca.confidence = _
  exact calculateTrust_ema σ mgr hgraph s.trustScore pca.confidence

/-- A failed verification leaves the registry unchanged. -/
lemma install_unsafe_unchanged (reg : SkillRegistry) (name : String) (g : SkillGraph)
    (now : Nat) (hsafe : (verify g).safe = false) :
    (installGraph reg name g false now).2 = reg := by
  simp only [installGraph]
  by_cases hin : (reg.skills g.contentHash).isSome
  · simp [hin]
  · simp [hin, hsafe]

/-- `install_graph` preserves the registry invariant: the inserted
entry always has `verified = true`. -/
lemma installGraph_inv (reg : SkillRegistry) (name : String) (g : SkillGraph)
    (builtin : Bool) (now : Nat) (hInv : RegistryInv reg) :
    RegistryInv (installGraph reg name g builtin now).2 := by
  have hins : ∀ entry : SkillEntry, entry.verified = true →
      RegistryInv { reg with
        skills := fun k => if k = g.contentHash then some entry else reg.skills k,
        nameIndex := fun k => if k = name then some g.contentHash else reg.nameIndex k } := by
    intro entry hver h e hsome
    simp only at hsome
    by_cases hk : h = g.contentHash
    · subst hk
      rw [if_pos rfl] at hsome
      injection hsome with h2
      subst h2
      exact Or.inl hver
    · rw [if_neg hk] at hsome
      exact hInv h e hsome
  simp only [installGraph]
  by_cases hin : (reg.skills g.contentHash).isSome
  · simpa [hin] using hInv
  · by_cases hb : builtin
    · by_cases hc : (match reg.nameIndex name with
        | some existingHash => existingHash != g.contentHash
        | none => false)
      · simpa [hin, hb, hc] using hInv
      · simpa [hin, hb, hc] using hins _ rfl
    · by_cases hsafe : (verify g).safe
      · by_cases hc : (match reg.nameIndex name with
          | some existingHash => existingHash != g.contentHash
          | none => false)
        · simpa [hin, hb, hsafe, hc] using hInv
        · simpa [hin, hb, hsafe, hc] using hins _ rfl
      · simpa [hin, hb, hsafe] using hInv

/-- `uninstall` preserves the registry invariant. -/
lemma uninstall_inv (reg : SkillRegistry) (h0 : ContentHash) (hInv : RegistryInv reg) :
    RegistryInv (uninstall reg h0).2 := by
  unfold uninstall
  split
  · split
    · exact hInv
    · intro h e hsome
      simp only at hsome
      by_cases hk : h = h0
      · simp [hk] at hsome
      · rw [if_neg hk] at hsome
        exact hInv h e hsome
  · exact hInv

/-- Every registry operation preserves the invariant. -/
lemma applyRegOp_inv (reg : SkillRegistry) (op : RegOp) (hInv : RegistryInv reg) :
    RegistryInv (applyRegOp reg op) := by
  cases op with
  | installOp name g builtin now => exact installGraph_inv reg name g builtin now hInv
  | uninstallOp h => exact uninstall_inv reg h hInv

/-! ### Kahn loop lemmas (used by the C3 theorem) -/

-- ----- getNode basics -----

lemma getNode_mem {g : Graph} {x : String} {n : GraphNode}
    (h : g.getNode x = some n) : n ∈ g.nodes ∧ n.id = x := by
  unfold Graph.getNode at h
  refine ⟨List.mem_of_find?_eq_some h, ?_⟩
  have := List.find?_some h
  simpa using this

lemma getNode_of_mem_ids {g : Graph} {x : String}
    (h : x ∈ g.nodes.map GraphNode.id) :
    ∃ n, g.getNode x = some n ∧ n.id = x ∧ n ∈ g.nodes := by
  obtain ⟨n, hn, hid⟩ := List.mem_map.1 h
  have hex : (g.nodes.find? (fun m => m.id == x)).isSome := by
    rw [List.find?_isSome]
    exact ⟨n, hn, by simp [hid]⟩
  obtain ⟨m, hm⟩ := Option.isSome_iff_exists.1 hex
  obtain ⟨hmem, hmid⟩ := getNode_mem (g := g) (x := x) hm
  exact ⟨m, hm, hmid, hmem⟩

lemma getNode_unique {g : Graph} (huniq : g.UniqueIds) {n : GraphNode}
    (hn : n ∈ g.nodes) : g.getNode n.id = some n := by
  obtain ⟨m, hm, hmid, hmmem⟩ := getNode_of_mem_ids (g := g)
    (List.mem_map_of_mem GraphNode.id hn)
  have : m = n := by
    have := List.inj_on_of_nodup_map (f := GraphNode.id) huniq
    exact this hmmem hn (by rw [hmid])
  rw [hm, this]

lemma remCount_eq {g : Graph} {x : String} {n : GraphNode}
    (h : g.getNode x = some n) (P : List String) :
    remCount g P x =
      (n.inputs.filter (fun inp => ! P.contains (headSegment inp))).length := by
  unfold remCount
  rw [h]

lemma remCount_none {g : Graph} {x : String}
    (h : g.getNode x = none) (P : List String) : remCount g P x = 0 := by
  unfold remCount
  rw [h]

lemma headCount_eq {g : Graph} {x : String} {n : GraphNode}
    (h : g.getNode x = some n) (u : String) :
    headCount g u x =
      (n.inputs.filter (fun inp => headSegment inp == u)).length := by
  unfold headCount
  rw [h]

lemma headCount_none {g : Graph} {x : String}
    (h : g.getNode x = none) (u : String) : headCount g u x = 0 := by
  unfold headCount
  rw [h]

-- ----- filter length splitting -----

lemma length_filter_split {α : Type} (l : List α) (p q r : α → Bool)
    (h : ∀ a ∈ l, p a = (q a || r a) ∧ ¬(q a = true ∧ r a = true)) :
    (l.filter p).length = (l.filter q).length + (l.filter r).length := by
  induction l with
  | nil => simp
  | cons a t ih =>
    have ha := h a (by simp)
    have ht := ih fun x hx => h x (by simp [hx])
    simp only [List.filter_cons]
    cases hq : q a <;> cases hr : r a <;>
      simp_all <;> omega

-- ----- remCount lemmas -----

lemma remCount_nil {g : Graph} {x : String} {n : GraphNode}
    (h : g.getNode x = some n) : remCount g [] x = n.inputs.length := by
  unfold remCount
  rw [h]
  simp

lemma remCount_append {g : Graph} {P : List String} {u x : String}
    (hu : u ∉ P) :
    remCount g P x = remCount g (P ++ [u]) x + headCount g u x := by
  cases hnode : g.getNode x with
  | none => simp [remCount_none hnode, headCount_none hnode]
  | some n =>
    rw [remCount_eq hnode, remCount_eq hnode, headCount_eq hnode]
    apply length_filter_split
    intro a _
    by_cases hhead : headSegment a = u
    · subst hhead
      constructor
      · simp [hu]
      · simp
    · constructor
      · simp [hhead]
      · simp [hhead]

lemma remCount_zero_mono {g : Graph} {P P' : List String} {x : String}
    (hPP : ∀ y ∈ P, y ∈ P') (h : remCount g P x = 0) :
    remCount g P' x = 0 := by
  cases hnode : g.getNode x with
  | none => simp [remCount_none hnode]
  | some n =>
    rw [remCount_eq hnode] at h ⊢
    rw [List.length_eq_zero, List.filter_eq_nil_iff] at h ⊢
    intro a ha
    have h2 := h a ha
    simp only [Bool.not_eq_true, Bool.not_eq_false] at h2
    have h3 : headSegment a ∈ P := by simpa using h2
    have h4 : headSegment a ∈ P' := hPP _ h3
    simp [h4]

lemma remCount_zero_iff_heads {g : Graph} {P : List String} {x : String}
    {n : GraphNode} (hnode : g.getNode x = some n) :
    remCount g P x = 0 ↔ ∀ inp ∈ n.inputs, headSegment inp ∈ P := by
  rw [remCount_eq hnode]
  rw [List.length_eq_zero, List.filter_eq_nil_iff]
  constructor
  · intro h inp hinp
    have := h inp hinp
    simpa using this
  · intro h inp hinp
    simpa using h inp hinp

-- ----- edge vs headCount -----

lemma edge_iff_headCount {g : Graph} (huniq : g.UniqueIds) (u v : String) :
    g.edge u v ↔ headCount g u v ≠ 0 := by
  unfold Graph.edge
  constructor
  · rintro ⟨n, hn, hid, hu⟩
    have hget : g.getNode v = some n := by
      rw [← hid]; exact getNode_unique huniq hn
    rw [headCount_eq hget]
    obtain ⟨inp, hinp, hhead⟩ := List.mem_map.1 hu
    intro hlen
    rw [List.length_eq_zero] at hlen
    have : inp ∈ n.inputs.filter (fun inp => headSegment inp == u) := by
      rw [List.mem_filter]
      exact ⟨hinp, by simp [hhead]⟩
    rw [hlen] at this
    exact absurd this (List.not_mem_nil inp)
  · intro h
    cases hnode : g.getNode v with
    | none => rw [headCount_none hnode] at h; simp at h
    | some n =>
      rw [headCount_eq hnode] at h
      obtain ⟨hmem, hid⟩ := getNode_mem hnode
      refine ⟨n, hmem, hid, ?_⟩
      rcases hne : n.inputs.filter (fun inp => headSegment inp == u) with _ | ⟨inp, rest⟩
      · rw [hne] at h; simp at h
      · have hin : inp ∈ n.inputs.filter (fun inp => headSegment inp == u) := by
          rw [hne]; simp
        rw [List.mem_filter] at hin
        exact List.mem_map.2 ⟨inp, hin.1, by simpa using hin.2⟩

lemma inputSum_cons (n : GraphNode) (t : List GraphNode) (x : String) :
    inputSum (n :: t) x =
      (if n.id = x then n.inputs.length else 0) + inputSum t x := by
  unfold inputSum
  by_cases h : n.id = x <;> simp [List.filter_cons, h]

lemma headSum_cons (n : GraphNode) (t : List GraphNode) (u x : String) :
    headSum (n :: t) u x =
      (if n.id = x then (n.inputs.filter (fun inp => headSegment inp == u)).length else 0) +
        headSum t u x := by
  unfold headSum
  by_cases h : n.id = x <;> simp [List.filter_cons, h]

-- ----- pass 1 of buildDeg -----

lemma pass1_deg (ns : List GraphNode) (m : DegMap) (x : String) :
    ((ns.foldl (fun m n => m.entryOr0 n.id) m).deg x) =
      if (m.deg x).isSome then m.deg x
      else if x ∈ ns.map GraphNode.id then some 0 else none := by
  induction ns generalizing m with
  | nil => cases h : m.deg x <;> simp [h]
  | cons n t ih =>
    rw [List.foldl_cons, ih]
    unfold DegMap.entryOr0
    cases hm : m.deg n.id with
    | some d =>
      cases hx : m.deg x with
      | some dx => simp [hx]
      | none =>
        have hne : x ≠ n.id := fun h => by rw [h, hm] at hx; cases hx
        simp [hx, hne]
    | none =>
      by_cases hxe : x = n.id
      · subst hxe
        simp [hm]
      · simp only [DegMap.deg]
        rw [if_neg hxe]
        cases hx : m.deg x with
        | some dx => simp [hx]
        | none => simp [hx, hxe]

lemma pass1_keys (ns : List GraphNode) (m : DegMap)
    (hdisj : ∀ n ∈ ns, m.deg n.id = none)
    (hnd : (ns.map GraphNode.id).Nodup) :
    (ns.foldl (fun m n => m.entryOr0 n.id) m).keys = m.keys ++ ns.map GraphNode.id := by
  induction ns generalizing m with
  | nil => simp
  | cons n t ih =>
    rw [List.foldl_cons]
    have hm : m.deg n.id = none := hdisj n (by simp)
    have hstep : m.entryOr0 n.id =
        ⟨m.keys ++ [n.id], fun x => if x = n.id then some 0 else m.deg x⟩ := by
      unfold DegMap.entryOr0
      rw [hm]
    simp only [List.map_cons, List.nodup_cons] at hnd
    rw [hstep, ih]
    · simp
    · intro n' hn'
      have hx : n'.id ≠ n.id := by
        intro h
        exact hnd.1 (h ▸ List.mem_map_of_mem GraphNode.id hn')
      simp only [DegMap.deg]
      rw [if_neg hx]
      exact hdisj n' (by simp [hn'])
    · exact hnd.2

-- ----- pass 2 of buildDeg -----

lemma bump_keys (m : DegMap) (k : String) : (m.bump k).keys = m.keys := by
  unfold DegMap.bump
  cases m.deg k <;> rfl

lemma bump_deg (m : DegMap) (k x : String) :
    (m.bump k).deg x = if x = k then (m.deg k).map (· + 1) else m.deg x := by
  unfold DegMap.bump
  cases hk : m.deg k with
  | none =>
    by_cases hx : x = k
    · subst hx; simp [hk]
    · simp [hx]
  | some d =>
    by_cases hx : x = k
    · subst hx; simp [hk]
    · simp [hx]

lemma bumpN_deg (l : List String) (m : DegMap) (k x : String) :
    ((l.foldl (fun m _ => m.bump k) m).deg x) =
      if x = k then (m.deg k).map (· + (l.length : Int)) else m.deg x := by
  induction l generalizing m with
  | nil =>
    rw [List.foldl_nil]
    by_cases hx : x = k
    · rw [if_pos hx, hx]
      cases m.deg k <;> simp
    · simp [hx]
  | cons a t ih =>
    rw [List.foldl_cons, ih]
    by_cases hx : x = k
    · simp only [hx, if_pos rfl, bump_deg]
      cases m.deg k <;> simp
      ring
    · simp [hx, bump_deg]

lemma bumpN_keys (l : List String) (m : DegMap) (k : String) :
    (l.foldl (fun m _ => m.bump k) m).keys = m.keys := by
  induction l generalizing m with
  | nil => rfl
  | cons a t ih => rw [List.foldl_cons, ih, bump_keys]

lemma pass2_deg (ns : List GraphNode) (m : DegMap) (x : String) :
    ((ns.foldl (fun m n => n.inputs.foldl (fun m _ => m.bump n.id) m) m).deg x) =
      (m.deg x).map (· + (inputSum ns x : Int)) := by
  induction ns generalizing m with
  | nil =>
    rw [List.foldl_nil]
    cases m.deg x <;> simp [inputSum]
  | cons n t ih =>
    rw [List.foldl_cons, ih, bumpN_deg, inputSum_cons]
    by_cases hx : x = n.id
    · simp only [hx, if_pos rfl]
      cases m.deg n.id <;> simp
      ring
    · rw [if_neg hx, if_neg (fun h => hx h.symm)]
      cases m.deg x <;> simp

lemma pass2_keys (ns : List GraphNode) (m : DegMap) :
    ((ns.foldl (fun m n => n.inputs.foldl (fun m _ => m.bump n.id) m) m).keys) = m.keys := by
  induction ns generalizing m with
  | nil => rfl
  | cons n t ih => rw [List.foldl_cons, ih, bumpN_keys]

lemma buildDeg_deg (ns : List GraphNode) (x : String) :
    (buildDeg ns).deg x =
      if x ∈ ns.map GraphNode.id then some (inputSum ns x : Int) else none := by
  unfold buildDeg
  rw [pass2_deg, pass1_deg]
  simp only [DegMap.deg, Option.isSome_none, Bool.false_eq_true, if_false]
  by_cases hx : x ∈ ns.map GraphNode.id
  · simp [hx]
  · simp [hx]

lemma buildDeg_keys (ns : List GraphNode) (hnd : (ns.map GraphNode.id).Nodup) :
    (buildDeg ns).keys = ns.map GraphNode.id := by
  unfold buildDeg
  rw [pass2_keys, pass1_keys]
  · simp
  · intro n _; rfl
  · exact hnd

-- ----- buildAdj -----

lemma adjPush_apply (adj : String → List String) (k v u : String) :
    (adjPush adj k v) u = if u = k then adj k ++ [v] else adj u := rfl

lemma adjInner_count (inputs : List String) (adj : String → List String)
    (nid u x : String) :
    List.count x ((inputs.foldl (fun adj inp => adjPush adj (headSegment inp) nid) adj) u) =
      List.count x (adj u) +
        (if x = nid then (inputs.filter (fun inp => headSegment inp == u)).length else 0) := by
  induction inputs generalizing adj with
  | nil => by_cases hx : x = nid <;> simp [hx]
  | cons inp t ih =>
    rw [List.foldl_cons, ih, adjPush_apply]
    by_cases hu : u = headSegment inp
    · rw [if_pos hu]
      subst hu
      rw [List.count_append, List.filter_cons]
      by_cases hx : x = nid
      · subst hx
        simp [List.count_singleton]
        try omega
      · simp [hx, List.count_singleton]
    · rw [if_neg hu, List.filter_cons]
      have : (headSegment inp == u) = false := by
        simp
        exact fun h => hu h.symm
      rw [this]
      simp

lemma buildAdj_count_gen (ns : List GraphNode) (adj0 : String → List String)
    (u x : String) :
    List.count x ((ns.foldl
        (fun adj n => n.inputs.foldl (fun adj inp => adjPush adj (headSegment inp) n.id) adj)
        adj0) u) =
      List.count x (adj0 u) + headSum ns u x := by
  induction ns generalizing adj0 with
  | nil => simp [headSum]
  | cons n t ih =>
    rw [List.foldl_cons, ih, adjInner_count, headSum_cons]
    by_cases hx : x = n.id
    · subst hx
      simp
      try omega
    · have hx2 : ¬ n.id = x := fun h => hx h.symm
      simp [hx, hx2]
      try omega

lemma buildAdj_count (ns : List GraphNode) (u x : String) :
    List.count x (buildAdj ns u) = headSum ns u x := by
  unfold buildAdj
  rw [buildAdj_count_gen]
  simp

lemma adj_mem_ids {ns : List GraphNode} {u x : String}
    (h : x ∈ buildAdj ns u) : x ∈ ns.map GraphNode.id := by
  have hcnt : List.count x (buildAdj ns u) ≠ 0 := by
    have := List.count_pos_iff.2 h
    omega
  rw [buildAdj_count] at hcnt
  unfold headSum at hcnt
  rcases hfe : ns.filter (fun n => n.id == x) with _ | ⟨n, rest⟩
  · rw [hfe] at hcnt; simp at hcnt
  · have : n ∈ ns.filter (fun n => n.id == x) := by rw [hfe]; simp
    rw [List.mem_filter] at this
    exact List.mem_map.2 ⟨n, this.1, by simpa using this.2⟩

-- ----- under uniqueness -----

lemma filter_id_single {l : List GraphNode} (hnd : (l.map GraphNode.id).Nodup)
    {n : GraphNode} (hn : n ∈ l) {x : String} (hx : n.id = x) :
    l.filter (fun m => m.id == x) = [n] := by
  induction l with
  | nil => cases hn
  | cons a t ih =>
    simp only [List.map_cons, List.nodup_cons] at hnd
    rcases List.mem_cons.1 hn with rfl | hmem
    · have hta : t.filter (fun m => m.id == x) = [] := by
        rw [List.filter_eq_nil_iff]
        intro m hm hc
        apply hnd.1
        have : m.id = x := by simpa using hc
        rw [hx, ← this]
        exact List.mem_map_of_mem GraphNode.id hm
      simp [List.filter_cons, hx, hta]
    · have hax : (a.id == x) = false := by
        simp
        intro h
        exact hnd.1 (by rw [h, ← hx]; exact List.mem_map_of_mem GraphNode.id hmem)
      simp [List.filter_cons, hax, ih hnd.2 hmem]

lemma filter_id_nil {l : List GraphNode} {x : String}
    (hx : x ∉ l.map GraphNode.id) :
    l.filter (fun m => m.id == x) = [] := by
  rw [List.filter_eq_nil_iff]
  intro m hm hc
  apply hx
  have : m.id = x := by simpa using hc
  rw [← this]
  exact List.mem_map_of_mem GraphNode.id hm

lemma inputSum_eq_remCount {g : Graph} (huniq : g.UniqueIds) {x : String}
    (hx : x ∈ g.nodes.map GraphNode.id) :
    inputSum g.nodes x = remCount g [] x := by
  obtain ⟨n, hget, hid, hmem⟩ := getNode_of_mem_ids hx
  rw [remCount_nil hget]
  unfold inputSum
  rw [filter_id_single huniq hmem hid]
  simp

lemma headSum_eq_headCount {g : Graph} (huniq : g.UniqueIds) (u x : String) :
    headSum g.nodes u x = headCount g u x := by
  by_cases hx : x ∈ g.nodes.map GraphNode.id
  · obtain ⟨n, hget, hid, hmem⟩ := getNode_of_mem_ids hx
    rw [headCount_eq hget]
    unfold headSum
    rw [filter_id_single huniq hmem hid]
    simp
  · have hget : g.getNode x = none := by
      unfold Graph.getNode
      rw [List.find?_eq_none]
      intro n hn hc
      apply hx
      have : n.id = x := by simpa using hc
      rw [← this]
      exact List.mem_map_of_mem GraphNode.id hn
    rw [headCount_none hget]
    unfold headSum
    rw [filter_id_nil hx]
    rfl

-- ----- relaxNeighbors -----

lemma relax_nil (d : String → Option Int) (q : List String) :
    relaxNeighbors [] d q = (d, q) := rfl

lemma relax_cons (nb : String) (L : List String) (d : String → Option Int)
    (q : List String) :
    relaxNeighbors (nb :: L) d q =
      match d nb with
      | some dd =>
          relaxNeighbors L (fun x => if x = nb then some (dd - 1) else d x)
            (if dd - 1 = 0 then nb :: q else q)
      | none => relaxNeighbors L d q := by
  cases hnb : d nb with
  | none =>
    unfold relaxNeighbors
    rw [List.foldl_cons]
    simp [hnb]
  | some dd =>
    unfold relaxNeighbors
    rw [List.foldl_cons]
    by_cases h : dd - 1 = 0 <;> simp [hnb, h]

lemma relax_deg (L : List String) (d : String → Option Int) (q : List String)
    (x : String) :
    (relaxNeighbors L d q).1 x = (d x).map (· - (L.count x : Int)) := by
  induction L generalizing d q with
  | nil =>
    rw [relax_nil]
    cases hdx : d x <;> simp [hdx]
  | cons nb L ih =>
    rw [relax_cons]
    cases hnb : d nb with
    | none =>
      rw [ih]
      by_cases hx : x = nb
      · rw [hx, hnb]
        simp
      · rw [List.count_cons_of_ne hx]
    | some dd =>
      by_cases h1 : dd - 1 = 0 <;>
      · simp only []
        rw [ih]
        by_cases hx : x = nb
        · subst hx
          rw [hnb, List.count_cons_self]
          simp only [if_pos rfl]
          simp
          omega
        · rw [if_neg hx, List.count_cons_of_ne hx]

lemma pushFlag_none (c : Nat) : pushFlag none c = 0 := rfl

lemma pushFlag_some (dd : Int) (c : Nat) :
    pushFlag (some dd) c = if 1 ≤ dd ∧ dd ≤ (c : Int) then 1 else 0 := rfl

lemma relax_count (L : List String) (d : String → Option Int) (q : List String)
    (x : String) :
    List.count x (relaxNeighbors L d q).2 =
      List.count x q + pushFlag (d x) (L.count x) := by
  induction L generalizing d q with
  | nil =>
    rw [relax_nil]
    cases hdx : d x with
    | none => simp [pushFlag_none, hdx]
    | some dd =>
      rw [pushFlag_some]
      have hno : ¬ (1 ≤ dd ∧ dd ≤ ((List.count x ([] : List String)) : Int)) := by
        simp only [List.count_nil]
        omega
      rw [if_neg hno]
      simp
  | cons nb L ih =>
    rw [relax_cons]
    cases hnb : d nb with
    | none =>
      rw [ih]
      by_cases hx : x = nb
      · rw [hx, hnb, pushFlag_none, pushFlag_none]
      · rw [List.count_cons_of_ne hx]
    | some dd =>
      rw [ih]
      by_cases hx : x = nb
      · subst hx
        rw [if_pos rfl, hnb, List.count_cons_self, pushFlag_some, pushFlag_some]
        by_cases h1 : dd - 1 = 0
        · rw [if_pos h1, List.count_cons_self]
          have hno : ¬ (1 ≤ dd - 1 ∧ dd - 1 ≤ ((List.count x L) : Int)) := by omega
          rw [if_neg hno]
          have hyes : 1 ≤ dd ∧ dd ≤ (((List.count x L) + 1 : Nat) : Int) := by
            constructor <;> omega
          rw [if_pos hyes]
        · rw [if_neg h1]
          by_cases hc : 1 ≤ dd - 1 ∧ dd - 1 ≤ ((List.count x L) : Int)
          · rw [if_pos hc,
              if_pos (show 1 ≤ dd ∧ dd ≤ (((List.count x L) + 1 : Nat) : Int) by
                constructor <;> omega)]
          · rw [if_neg hc,
              if_neg (show ¬ (1 ≤ dd ∧ dd ≤ (((List.count x L) + 1 : Nat) : Int)) by
                intro hcon
                exact hc (by constructor <;> omega))]
      · rw [if_neg hx, List.count_cons_of_ne hx]
        by_cases h1 : dd - 1 = 0
        · rw [if_pos h1, List.count_cons_of_ne hx]
        · rw [if_neg h1]

lemma relax_mem_iff (L : List String) (d : String → Option Int)
    (q : List String) (x : String) :
    x ∈ (relaxNeighbors L d q).2 ↔
      x ∈ q ∨ (∃ dd, d x = some dd ∧ 1 ≤ dd ∧ dd ≤ (L.count x : Int)) := by
  rw [← List.count_pos_iff, ← List.count_pos_iff, relax_count]
  cases hd : d x with
  | none =>
    unfold pushFlag
    simp
  | some dd =>
    have hflag : pushFlag (some dd) (List.count x L) =
        if 1 ≤ dd ∧ dd ≤ ((List.count x L : Nat) : Int) then 1 else 0 := rfl
    rw [hflag]
    by_cases h : 1 ≤ dd ∧ dd ≤ ((List.count x L : Nat) : Int)
    · rw [if_pos h]
      constructor
      · intro _
        exact Or.inr ⟨dd, rfl, h⟩
      · intro _
        omega
    · rw [if_neg h]
      constructor
      · intro hpos
        exact Or.inl (by omega)
      · rintro (hq | ⟨dd', hdd', hdd2⟩)
        · omega
        · injection hdd' with hinj
          subst hinj
          exact absurd hdd2 h

lemma kahnInv_init {g : Graph} (huniq : g.UniqueIds) :
    KahnInv g
      (((buildDeg g.nodes).keys.filter
        (fun k => (buildDeg g.nodes).deg k == some 0)).reverse)
      (buildDeg g.nodes).deg [] := by
  have hkeys : (buildDeg g.nodes).keys = g.nodes.map GraphNode.id :=
    buildDeg_keys g.nodes huniq
  constructor
  · intro n hn
    cases hn
  · intro x hx
    rw [List.mem_reverse, List.mem_filter, hkeys] at hx
    exact hx.1
  · simp only [List.map_nil, List.nil_append]
    rw [List.nodup_reverse]
    have h2 : (buildDeg g.nodes).keys.Nodup := by
      rw [hkeys]
      exact huniq
    exact h2.filter _
  · intro x hx
    rw [buildDeg_deg, if_pos hx, inputSum_eq_remCount huniq hx]
    rfl
  · intro x hx
    rw [buildDeg_deg, if_neg hx]
  · intro x hx
    simp only [List.map_nil, List.not_mem_nil, false_or, List.mem_reverse,
      List.mem_filter, hkeys]
    rw [buildDeg_deg, if_pos hx, inputSum_eq_remCount huniq hx]
    constructor
    · rintro ⟨-, h0⟩
      have : ((remCount g [] x : Nat) : Int) = 0 := by
        simpa using h0
      exact_mod_cast this
    · intro h0
      refine ⟨hx, ?_⟩
      simp [h0]
  · intro i v hiv
    simp at hiv

lemma kahnInv_step {g : Graph} (huniq : g.UniqueIds) {u : String}
    {rest : List String} {deg : String → Option Int} {result : List GraphNode}
    (hinv : KahnInv g (u :: rest) deg result) :
    ∃ n, g.getNode u = some n ∧
      KahnInv g (relaxNeighbors (buildAdj g.nodes u) deg rest).2
        (relaxNeighbors (buildAdj g.nodes u) deg rest).1 (result ++ [n]) := by
  have hu_ids : u ∈ g.nodes.map GraphNode.id := hinv.queueIds u (by simp)
  obtain ⟨n, hget, hnid, hnmem⟩ := getNode_of_mem_ids hu_ids
  refine ⟨n, hget, ?_⟩
  have hP' : (result ++ [n]).map GraphNode.id =
      result.map GraphNode.id ++ [u] := by
    simp [hnid]
  have hnd3 := List.nodup_append.mp hinv.nodup
  have hu_notP : u ∉ result.map GraphNode.id := by
    intro hc
    exact hnd3.2.2 hc (by simp)
  have hrem_u : remCount g (result.map GraphNode.id) u = 0 :=
    (hinv.zeroIff u hu_ids).mp (Or.inr (by simp))
  have hcount : ∀ x, List.count x (buildAdj g.nodes u) = headCount g u x := by
    intro x
    rw [buildAdj_count, headSum_eq_headCount huniq]
  have hsplit : ∀ x, remCount g (result.map GraphNode.id) x =
      remCount g (result.map GraphNode.id ++ [u]) x + headCount g u x :=
    fun x => remCount_append hu_notP
  have hdeg' : ∀ x, (relaxNeighbors (buildAdj g.nodes u) deg rest).1 x =
      (deg x).map (· - (headCount g u x : Int)) := by
    intro x
    rw [relax_deg, hcount]
  have hq' : ∀ x, x ∈ (relaxNeighbors (buildAdj g.nodes u) deg rest).2 ↔
      x ∈ rest ∨ (∃ dd, deg x = some dd ∧ 1 ≤ dd ∧ dd ≤ (headCount g u x : Int)) := by
    intro x
    rw [relax_mem_iff, hcount]
  have hpush : ∀ x, x ∈ (relaxNeighbors (buildAdj g.nodes u) deg rest).2 ↔
      x ∈ rest ∨ (x ∈ g.nodes.map GraphNode.id ∧
        remCount g (result.map GraphNode.id ++ [u]) x = 0 ∧ headCount g u x ≠ 0) := by
    intro x
    rw [hq']
    constructor
    · rintro (hr | ⟨dd, hdd, h1, h2⟩)
      · exact Or.inl hr
      · have hx_ids : x ∈ g.nodes.map GraphNode.id := by
          by_contra hc
          rw [hinv.degNone x hc] at hdd
          cases hdd
        rw [hinv.degSome x hx_ids] at hdd
        injection hdd with hdd
        subst hdd
        have := hsplit x
        refine Or.inr ⟨hx_ids, by omega, by omega⟩
    · rintro (hr | ⟨hx_ids, h0, hne⟩)
      · exact Or.inl hr
      · refine Or.inr ⟨(remCount g (result.map GraphNode.id) x : Int),
          hinv.degSome x hx_ids, ?_, ?_⟩
        · have := hsplit x
          omega
        · have := hsplit x
          omega
  constructor
  · intro m hm
    rcases List.mem_append.mp hm with hm | hm
    · exact hinv.resultNodes m hm
    · have : m = n := by simpa using hm
      subst this
      rw [hnid]
      exact hget
  · intro x hx
    rcases (hpush x).mp hx with hr | ⟨hx_ids, -, -⟩
    · exact hinv.queueIds x (by simp [hr])
    · exact hx_ids
  · rw [hP', List.nodup_iff_count_le_one]
    intro x
    have hold : List.count x (result.map GraphNode.id ++ u :: rest) ≤ 1 :=
      List.nodup_iff_count_le_one.mp hinv.nodup x
    have hsplitc : List.count x (result.map GraphNode.id ++ u :: rest) =
        List.count x (result.map GraphNode.id) + List.count x [u] +
          List.count x rest := by
      rw [List.count_append,
        show (u :: rest : List String) = [u] ++ rest from rfl,
        List.count_append]
      omega
    have hold2 : List.count x (result.map GraphNode.id) + List.count x [u] +
        List.count x rest ≤ 1 := by omega
    rw [List.append_assoc, List.count_append, List.count_append, relax_count,
      hcount]
    cases hdx : deg x with
    | none =>
      rw [pushFlag_none]
      omega
    | some dd =>
      rw [pushFlag_some]
      by_cases hcond : 1 ≤ dd ∧ dd ≤ (headCount g u x : Int)
      · rw [if_pos hcond]
        have hx_ids : x ∈ g.nodes.map GraphNode.id := by
          by_contra hc
          rw [hinv.degNone x hc] at hdx
          cases hdx
        have hdd : dd = (remCount g (result.map GraphNode.id) x : Int) := by
          rw [hinv.degSome x hx_ids] at hdx
          injection hdx with h
          exact h.symm
        have hremx : remCount g (result.map GraphNode.id) x ≠ 0 := by
          intro h0
          rw [hdd] at hcond
          omega
        have hnm : ¬ (x ∈ result.map GraphNode.id ∨ x ∈ u :: rest) := by
          intro hc
          exact hremx ((hinv.zeroIff x hx_ids).mp hc)
        push_neg at hnm
        have hc1 : List.count x (result.map GraphNode.id) = 0 :=
          List.count_eq_zero.mpr hnm.1
        have hc2 : x ∉ rest := fun hc => hnm.2 (by simp [hc])
        have hc3 : x ≠ u := fun hc => hnm.2 (by simp [hc])
        have hc4 : List.count x rest = 0 := List.count_eq_zero.mpr hc2
        have hc5 : List.count x [u] = 0 :=
          List.count_eq_zero.mpr (by simpa using hc3)
        omega
      · rw [if_neg hcond]
        omega
  · intro x hx
    rw [hP', hdeg', hinv.degSome x hx]
    simp only [Option.map_some']
    congr 1
    have := hsplit x
    omega
  · intro x hx
    rw [hdeg', hinv.degNone x hx]
    rfl
  · intro x hx
    rw [hP', hpush]
    constructor
    · rintro (hmem | hq)
      · rcases List.mem_append.mp hmem with hmem | hmem
        · exact remCount_zero_mono (fun y hy => by simp [hy])
            ((hinv.zeroIff x hx).mp (Or.inl hmem))
        · have hxu : x = u := by simpa using hmem
          subst hxu
          exact remCount_zero_mono (fun y hy => by simp [hy]) hrem_u
      · rcases hq with hr | ⟨-, h0, -⟩
        · exact remCount_zero_mono (fun y hy => by simp [hy])
            ((hinv.zeroIff x hx).mp (Or.inr (by simp [hr])))
        · exact h0
    · intro h0
      by_cases hremP : remCount g (result.map GraphNode.id) x = 0
      · rcases (hinv.zeroIff x hx).mpr hremP with hmem | hmem
        · exact Or.inl (List.mem_append.mpr (Or.inl hmem))
        · rcases List.mem_cons.mp hmem with hxu | hr
          · exact Or.inl (List.mem_append.mpr (Or.inr (by simp [hxu])))
          · exact Or.inr (Or.inl hr)
      · have hne : headCount g u x ≠ 0 := by
          have := hsplit x
          omega
        exact Or.inr (Or.inr ⟨hx, h0, hne⟩)
  · intro i v hiv w hw
    rw [hP'] at hiv ⊢
    rcases Nat.lt_trichotomy i (result.map GraphNode.id).length with hi | hi | hi
    · rw [List.getElem?_append_left hi] at hiv
      obtain ⟨j, hj, hjw⟩ := hinv.ordered i v hiv w hw
      refine ⟨j, hj, ?_⟩
      rw [List.getElem?_append_left (by omega)]
      exact hjw
    · have : (result.map GraphNode.id ++ [u])[i]? = some u := by
        rw [hi]
        exact List.getElem?_concat_length _ _
      rw [this] at hiv
      injection hiv with hiv
      subst hiv
      have hheads := (remCount_zero_iff_heads hget).mp hrem_u
      have hwP : w ∈ result.map GraphNode.id := by
        rw [headCount_eq hget] at hw
        rcases hfe : n.inputs.filter (fun inp => headSegment inp == w)
          with _ | ⟨inp, tl⟩
        · rw [hfe] at hw
          simp at hw
        · have hinp : inp ∈ n.inputs.filter (fun inp => headSegment inp == w) := by
            rw [hfe]
            simp
          rw [List.mem_filter] at hinp
          have : headSegment inp = w := by simpa using hinp.2
          rw [← this]
          exact hheads inp hinp.1
      obtain ⟨j, hjlt, hjget⟩ := List.mem_iff_getElem.mp hwP
      refine ⟨j, by omega, ?_⟩
      rw [List.getElem?_append_left hjlt]
      rw [List.getElem?_eq_getElem hjlt]
      exact congrArg some hjget
    · have hnone : (result.map GraphNode.id ++ [u])[i]? = none := by
        apply List.getElem?_eq_none
        rw [List.length_append, List.length_singleton]
        omega
      rw [hnone] at hiv
      cases hiv

lemma kahnLoop_inv {g : Graph} (huniq : g.UniqueIds) :
    ∀ (fuel : Nat) (queue : List String) (deg : String → Option Int)
      (result : List GraphNode),
      KahnInv g queue deg result →
      g.nodes.length + 1 - result.length ≤ fuel →
      ∃ deg', KahnInv g [] deg'
        (kahnLoop g (buildAdj g.nodes) fuel queue deg result) := by
  intro fuel
  induction fuel with
  | zero =>
    intro queue deg result hinv hfuel
    exfalso
    have hndP : (result.map GraphNode.id).Nodup :=
      (List.nodup_append.mp hinv.nodup).1
    have hsub : result.map GraphNode.id ⊆ g.nodes.map GraphNode.id := by
      intro x hxmem
      obtain ⟨m, hm, hmid⟩ := List.mem_map.1 hxmem
      have := (getNode_mem (hinv.resultNodes m hm)).1
      rw [← hmid]
      exact List.mem_map_of_mem GraphNode.id this
    have hlen : (result.map GraphNode.id).length ≤
        (g.nodes.map GraphNode.id).length :=
      (List.subperm_of_subset hndP hsub).length_le
    simp only [List.length_map] at hlen
    omega
  | succ fuel ih =>
    intro queue deg result hinv hfuel
    cases queue with
    | nil =>
      refine ⟨deg, ?_⟩
      have hred : kahnLoop g (buildAdj g.nodes) (fuel + 1) [] deg result =
          result := rfl
      rw [hred]
      exact hinv
    | cons u rest =>
      obtain ⟨n, hget, hinv'⟩ := kahnInv_step huniq hinv
      have hred : kahnLoop g (buildAdj g.nodes) (fuel + 1) (u :: rest) deg result =
          kahnLoop g (buildAdj g.nodes) fuel
            (relaxNeighbors (buildAdj g.nodes u) deg rest).2
            (relaxNeighbors (buildAdj g.nodes u) deg rest).1 (result ++ [n]) := by
        simp only [kahnLoop, hget]
      rw [hred]
      apply ih _ _ _ hinv'
      have : (result ++ [n]).length = result.length + 1 := by simp
      omega

lemma cycle_of_pred {g : Graph} {S : List String} (hne : S ≠ [])
    (hpred : ∀ v ∈ S, ∃ u ∈ S, g.edge u v) :
    ∃ c, Relation.TransGen g.edge c c := by
  let f : {x // x ∈ S} → {x // x ∈ S} := fun v =>
    ⟨(hpred v.1 v.2).choose, (hpred v.1 v.2).choose_spec.1⟩
  have hf : ∀ v : {x // x ∈ S}, g.edge (f v).1 v.1 :=
    fun v => (hpred v.1 v.2).choose_spec.2
  let v0 : {x // x ∈ S} := ⟨S.head hne, List.head_mem hne⟩
  let W : Nat → {x // x ∈ S} := fun n => f^[n] v0
  have hedge : ∀ n, g.edge (W (n + 1)).1 (W n).1 := by
    intro n
    have hsucc : W (n + 1) = f (W n) := Function.iterate_succ_apply' f n v0
    rw [hsucc]
    exact hf (W n)
  have htrans : ∀ i k, Relation.TransGen g.edge (W (i + k + 1)).1 (W i).1 := by
    intro i k
    induction k with
    | zero => exact Relation.TransGen.single (hedge i)
    | succ k ih => exact Relation.TransGen.head (hedge (i + k + 1)) ih
  have hmain : ∀ a b : Nat, a < b → (W a).1 = (W b).1 →
      ∃ c, Relation.TransGen g.edge c c := by
    intro a b hab hWeq
    have hidx : a + (b - a - 1) + 1 = b := by omega
    have ht := htrans a (b - a - 1)
    rw [hidx] at ht
    rw [← hWeq] at ht
    exact ⟨(W a).1, ht⟩
  have hcard : S.toFinset.card < (Finset.range (S.toFinset.card + 1)).card := by
    rw [Finset.card_range]
    omega
  have hmaps : ∀ n ∈ Finset.range (S.toFinset.card + 1),
      (W n).1 ∈ S.toFinset :=
    fun n _ => List.mem_toFinset.mpr (W n).2
  obtain ⟨i, hi, j, hj, hij, heq⟩ :=
    Finset.exists_ne_map_eq_of_card_lt_of_maps_to hcard hmaps
  rcases Nat.lt_or_ge i j with hlt | hge
  · exact hmain i j hlt heq
  · have hlt2 : j < i := by
      rcases Nat.lt_or_ge j i with h | h
      · exact h
      · exact absurd (Nat.le_antisymm h hge) hij
    exact hmain j i hlt2 heq.symm

lemma topoSort_eq (g : Graph) :
    g.topoSort =
      (if (kahnLoop g (buildAdj g.nodes) (g.nodes.length + 1)
            (((buildDeg g.nodes).keys.filter
              (fun k => (buildDeg g.nodes).deg k == some 0)).reverse)
            (buildDeg g.nodes).deg []).length ≠ g.nodes.length then
        Except.error (GatewayError.configError "Cycle detected in graph")
      else Except.ok (kahnLoop g (buildAdj g.nodes) (g.nodes.length + 1)
            (((buildDeg g.nodes).keys.filter
              (fun k => (buildDeg g.nodes).deg k == some 0)).reverse)
            (buildDeg g.nodes).deg [])) := rfl

/-! ## The claims -/

/-- C1: the claim asserts byte-equal outputs, execution hash and trace
for two independent `execute(g, inputs)` calls, including when node
values contain multi-key `Map` values.  The code serializes `Value::Map`
through the seed-dependent iteration order of `HashMap`, so two runs that
build the same three-key `Route` result can feed differently ordered
bytes to the hasher: both `List.reverse` and the identity are iteration
orders of the same entries (first conjunct), yet they produce different
execution-hash bytes on the same graph and inputs (second conjunct). -/
theorem c1_map_order_changes_execution_hash :
    (∀ l : List (String × Value), (List.reverse l).Perm l) ∧
    ((execute List.reverse RuntimeConfig.standard routeOnlyGraph (fun _ => none)).toOption.map
        (fun r => r.hash.bytes)) ≠
      ((execute (fun l => l) RuntimeConfig.standard routeOnlyGraph (fun _ => none)).toOption.map
        (fun r => r.hash.bytes)) :=
  ⟨fun l => List.reverse_perm l, by decide⟩

/-- C2 (counterexample): the execution hash of a completed execution is
not a single application of SHA-256 to the claimed concatenation — at
the trace `["a"]` with recorded value `Null` the computed hash differs
from the single SHA-256. -/
theorem c2_execution_hash_not_single_sha256 :
    computeExecutionHash c2Ctx ≠ specExecutionHash c2Ctx := by decide

/-- C2 (amended): the execution hash equals SHA-256 applied twice to the
concatenation, over the node ids in trace order, of the id's bytes
followed by the canonical JSON of that node's recorded value — once by
the hasher's finalize and once more inside `ContentHash::from_bytes`. -/
theorem c2_execution_hash_double_sha256 :
    ∀ ctx : ExecutionContext,
      computeExecutionHash ctx = ⟨sha256 (sha256 (specExecutionConcat ctx))⟩ := by
  intro ctx
  unfold computeExecutionHash ContentHash.fromBytes
  rw [executionFeed_eq_concat]

/-- C3 (counterexample): `topo_sort` does not succeed on every acyclic
graph — a single node whose input references a nonexistent id is never
emitted by Kahn's loop, so the sort reports a cycle although the graph
has none. -/
theorem c3_topo_sort_fails_on_acyclic_dangling_graph :
    danglingGraph.topoSort.isOk = false ∧ Graph.Acyclic danglingGraph := by
  refine ⟨by decide, ?_⟩
  have hedge : ∀ u w, danglingGraph.edge u w → u = "missing" ∧ w = "a" := by
    intro u w h
    obtain ⟨n, hn, hid, hu⟩ := h
    simp [danglingGraph] at hn
    subst hn
    simp [headSegment] at hu
    simp_all
  have hend : ∀ x y, Relation.TransGen danglingGraph.edge x y → y = "a" := by
    intro x y h
    induction h with
    | single h => exact (hedge _ _ h).2
    | tail _ h _ => exact (hedge _ _ h).2
  have hstart : ∀ x y, Relation.TransGen danglingGraph.edge x y → x = "missing" := by
    intro x y h
    induction h with
    | single h => exact (hedge _ _ h).1
    | tail _ _ ih => exact ih
  intro v hv
  have h1 := hend _ _ hv
  have h2 := hstart _ _ hv
  subst h1
  simp at h2

/-- C4: from a manager whose session graph is the in-source default (or
absent, falling back to the direct EMA), a sequence of updates appends
each PCA's `input_hash` to the session history and drives the trust
through the clamped EMA recurrence tᵢ = 0.9·tᵢ₋₁ + 0.1·cᵢ; single-update
behaviour is the singleton instance.  `f32`/`f64` arithmetic is
idealised as exact rationals. -/
theorem c4_session_update_trust_ema (σ : MapOrder) (mgr : SessionManager)
    (hgraph : mgr.sessionGraph = some buildDefaultSessionGraph ∨ mgr.sessionGraph = none)
    (sid : ContentHash) (s : Session) (hs : mgr.sessions sid = some s)
    (steps : List (ProofCarryingAction × Nat))
    (ht0 : 0 ≤ s.trustScore.value) (ht1 : s.trustScore.value ≤ 1)
    (hcs : ∀ p ∈ steps, 0 ≤ p.1.confidence.value ∧ p.1.confidence.value ≤ 1) :
    (∀ pca now, ∃ mgr', SessionManager.update σ mgr sid pca now = .ok mgr' ∧
      ∃ s', mgr'.sessions sid = some s' ∧
        s'.history = s.history ++ [pca.inputHash] ∧
        s'.trustScore = Confidence.new (emaStep s.trustScore.value pca.confidence.value)) ∧
    (∃ mgr', updateMany σ mgr sid steps = .ok mgr' ∧
      ∃ s', mgr'.sessions sid = some s' ∧
        s'.history = s.history ++ steps.map (fun p => p.1.inputHash) ∧
        s'.trustScore.value =
          emaFold s.trustScore.value (steps.map (fun p => p.1.confidence.value))) := by
  constructor
  · intro pca now
    obtain ⟨mgr', hup, _, s', hs', hh', htr'⟩ := update_spec σ mgr hgraph sid s hs pca now
    exact ⟨mgr', hup, s', hs', hh', htr'⟩
  · induction steps generalizing mgr s with
    | nil => exact ⟨mgr, rfl, s, hs, by simp, by simp [emaFold]⟩
    | cons step rest ih =>
      obtain ⟨pca, now⟩ := step
      obtain ⟨mgr', hup, hg', s', hs', hh', htr'⟩ := update_spec σ mgr hgraph sid s hs pca now
      have hc := hcs (pca, now) (by simp)
      have hbounds := emaStep_bounds ht0 ht1 hc.1 hc.2
      have hval : s'.trustScore.value = emaStep s.trustScore.value pca.confidence.value := by
        rw [htr']
        exact Confidence.value_new_of_bounds _ hbounds.1 hbounds.2
      have hgraph' : mgr'.sessionGraph = some buildDefaultSessionGraph ∨
          mgr'.sessionGraph = none := by
        rw [hg']; exact hgraph
      obtain ⟨mgrF, hF, sF, hsF, hhF, htF⟩ :=
        ih mgr' hgraph' s' hs' (by rw [hval]; exact hbounds.1) (by rw [hval]; exact hbounds.2)
          (fun p hp => hcs p (by simp [hp]))
      refine ⟨mgrF, ?_, sF, hsF, ?_, ?_⟩
      · unfold updateMany
        rw [hup]
        exact hF
      · rw [hhF, hh']
        simp
      · rw [htF, hval]
        simp [emaFold]

/-- C4 witness: the theorem applied to a concrete manager, session and
one update with confidence 0.9. -/
theorem c4_session_update_trust_ema_witness :
    (c4mgr.sessionGraph = some buildDefaultSessionGraph ∨ c4mgr.sessionGraph = none) ∧
    (c4mgr.sessions ContentHash.zero = some c4session) ∧
    ((∀ pca now, ∃ mgr', SessionManager.update (fun l => l) c4mgr ContentHash.zero pca now = .ok mgr' ∧
      ∃ s', mgr'.sessions ContentHash.zero = some s' ∧
        s'.history = c4session.history ++ [pca.inputHash] ∧
        s'.trustScore = Confidence.new (emaStep c4session.trustScore.value pca.confidence.value)) ∧
    (∃ mgr', updateMany (fun l => l) c4mgr ContentHash.zero [(c4pca, 5)] = .ok mgr' ∧
      ∃ s', mgr'.sessions ContentHash.zero = some s' ∧
        s'.history = c4session.history ++ [(c4pca, 5)].map (fun p => p.1.inputHash) ∧
        s'.trustScore.value =
          emaFold c4session.trustScore.value ([(c4pca, 5)].map (fun p => p.1.confidence.value)))) :=
  ⟨Or.inl rfl, by simp [c4mgr],
   c4_session_update_trust_ema (fun l => l) c4mgr (Or.inl rfl) ContentHash.zero c4session
     (by simp [c4mgr])
     [(c4pca, 5)]
     (by norm_num [c4session, Confidence.new, Confidence.value])
     (by norm_num [c4session, Confidence.new, Confidence.value])
     (by intro p hp; rw [List.mem_singleton] at hp; subst hp;
         norm_num [c4pca, Confidence.new, Confidence.value])⟩

/-- C5: the bytes signed (and re-built during verification) are exactly
the concatenation, in this order with no separators, of the canonical
JSON of the action, the 32 bytes of the session hash, the 32 bytes of
the input hash, the 32 bytes of each execution-trace hash in order, the
4-byte little-endian f32 confidence, and the 8-byte little-endian u64
timestamp. -/
theorem c5_sign_message_layout (action : Action) (sessionHash inputHash : ContentHash)
    (tr : List ContentHash) (conf : Confidence) (ts : Nat)
    (hs : sessionHash.bytes.length = 32) (hi : inputHash.bytes.length = 32)
    (htr : ∀ h ∈ tr, h.bytes.length = 32) :
    buildSignMessageStatic action sessionHash inputHash tr conf ts =
      specSignMessage action sessionHash inputHash tr conf ts ∧
    sessionHash.asBytes.length = 32 ∧ inputHash.asBytes.length = 32 ∧
    (tr.flatMap ContentHash.bytes).length = 32 * tr.length ∧
    (f32LeBytes conf.value).length = 4 ∧ (le64 ts).length = 8 := by
  refine ⟨?_, hs, hi, flatMap_hashes_length tr htr, rfl, rfl⟩
  simp only [buildSignMessageStatic, specSignMessage]
  rw [foldl_append_hashes]
  simp [ContentHash.asBytes, List.append_assoc]

/-- C5 witness: the layout theorem applied to a concrete `NoOp` PCA with
hashes obtained by hashing. -/
theorem c5_sign_message_layout_witness :
    (ContentHash.fromString "session").bytes.length = 32 ∧
    (buildSignMessageStatic (.noOp "test") (ContentHash.fromString "session")
        (ContentHash.fromString "input") [ContentHash.fromString "node1"]
        (Confidence.new (99/100)) 1700000000000 =
      specSignMessage (.noOp "test") (ContentHash.fromString "session")
        (ContentHash.fromString "input") [ContentHash.fromString "node1"]
        (Confidence.new (99/100)) 1700000000000 ∧
    (ContentHash.fromString "session").asBytes.length = 32 ∧
    (ContentHash.fromString "input").asBytes.length = 32 ∧
    ([ContentHash.fromString "node1"].flatMap ContentHash.bytes).length =
      32 * [ContentHash.fromString "node1"].length ∧
    (f32LeBytes (Confidence.new (99/100)).value).length = 4 ∧
    (le64 1700000000000).length = 8) :=
  ⟨by decide,
   c5_sign_message_layout (.noOp "test") (ContentHash.fromString "session")
     (ContentHash.fromString "input") [ContentHash.fromString "node1"]
     (Confidence.new (99/100)) 1700000000000
     (by decide) (by decide)
     (by intro h hh; rw [List.mem_singleton] at hh; subst hh; decide)⟩

/-- C6: the claim requires `halting_proven = true` only when the graph
is acyclic and every nested `Map.body`/`Filter.predicate` also halts,
recursively, and in particular a `Map` whose body has a cycle must yield
`false`.  The verifier accepts `badMapSkill` and emits
`halting_proven = true` although its `Map` body is cyclic, because
`prove_halting` never cycle-checks nested sub-graphs. -/
theorem c6_halting_proven_despite_cyclic_map_body :
    (verify badMapSkill).safe = true ∧
    ((verify badMapSkill).proof.map SafetyProof.haltingProven) = some true ∧
    ¬ SpecHalts badMapSkill := by
  refine ⟨by decide, by decide, ?_⟩
  intro h
  cases h with
  | intro _ hbodies =>
    have hb : cyclicBody ∈ nestedBodies badMapSkill := by
      simp [nestedBodies, badMapSkill, SkillGraph.nodes]
    cases hbodies cyclicBody hb with
    | intro hacyc _ =>
      apply hacyc "a"
      have e1 : cyclicBody.edge "a" "b" := by
        refine ⟨.operation "b" .identity ["a"], ?_, rfl, ?_⟩ <;>
          simp [cyclicBody, SkillGraph.nodes, SkillNode.inputs]
      have e2 : cyclicBody.edge "b" "a" := by
        refine ⟨.operation "a" .identity ["b"], ?_, rfl, ?_⟩ <;>
          simp [cyclicBody, SkillGraph.nodes, SkillNode.inputs]
      exact Relation.TransGen.tail (Relation.TransGen.single e1) e2

/-- C7: from any registry satisfying the invariant, every entry present
after any sequence of `install_graph` and `uninstall` operations is
verified or built-in, and a failed verification leaves the registry
unchanged. -/
theorem c7_registry_verified_or_builtin (reg : SkillRegistry) (hInv : RegistryInv reg)
    (ops : List RegOp) :
    RegistryInv (runRegOps reg ops) ∧
    (∀ name g now, (verify g).safe = false →
      (installGraph reg name g false now).2 = reg) := by
  constructor
  · unfold runRegOps
    induction ops generalizing reg with
    | nil => exact hInv
    | cons op rest ih =>
      simp only [List.foldl_cons]
      exact ih _ (applyRegOp_inv reg op hInv)
  · intro name g now hsafe
    exact install_unsafe_unchanged reg name g now hsafe

/-- C7 witness: the invariant theorem applied to the empty registry and
an install of `sampleSkill`. -/
theorem c7_registry_verified_or_builtin_witness :
    RegistryInv (SkillRegistry.new "graphs/skills") ∧
    (RegistryInv (runRegOps (SkillRegistry.new "graphs/skills")
        [.installOp "echoish" sampleSkill true 0]) ∧
    (∀ name g now, (verify g).safe = false →
      (installGraph (SkillRegistry.new "graphs/skills") name g false now).2 =
        SkillRegistry.new "graphs/skills")) :=
  have hInv : RegistryInv (SkillRegistry.new "graphs/skills") := by
    intro h e hsome
    simp [SkillRegistry.new] at hsome
  ⟨hInv, c7_registry_verified_or_builtin (SkillRegistry.new "graphs/skills") hInv
    [.installOp "echoish" sampleSkill true 0]⟩

/-- C8: the claim asserts that the `SaveState`/`LoadState` builtins are
backed by the interpreter's state store.  Executing a graph that saves
`Int 42` under `"session1"` and then loads `"session1"` returns the
builtin's hard-coded stub map, not the saved value — the builtins never
touch the store (their embedded signatures are pure), while the
interpreter-level `load_state`/`save_state` pair does round-trip. -/
theorem c8_load_save_state_stubbed :
    ((execute (fun l => l) RuntimeConfig.standard stateRoundtripGraph (fun _ => none)).map
        (fun r => (r.outputs "load", r.outputs "save")) =
      .ok (some (.map [("session_id", .str "session1"),
                       ("trust_score", .confidence (1/2)),
                       ("message_count", .int 0)]),
           some (.int 42))) ∧
    (some (Value.map [("session_id", .str "session1"),
                      ("trust_score", .confidence (1/2)),
                      ("message_count", .int 0)]) ≠ some (Value.int 42)) ∧
    (∀ (store : StateStore) (k : String) (v : Value),
      loadState (saveState store k v) k = v) := by
  refine ⟨rfl, by simp, ?_⟩
  intro store k v
  simp [loadState, saveState]

/-- C9: the execution-trace entries of a PCA are exactly the SHA-256
hashes of the visited node-id strings, in trace order, and depend on
nothing else: equal traces give equal node-hash vectors whatever the
outputs, values, hash or confidence of the two executions were. -/
theorem c9_execution_trace_only_depends_on_node_ids (r1 r2 : ExecutionResult)
    (h : r1.trace = r2.trace) :
    (ExecutionTrace.fromGraphExecution r1).nodes = (ExecutionTrace.fromGraphExecution r2).nodes ∧
    (ExecutionTrace.fromGraphExecution r1).nodes =
      r1.trace.map (fun nodeId => ⟨sha256 (strBytes nodeId)⟩) ∧
    (ExecutionTrace.fromGraphExecution r1).cached = false := by
  refine ⟨?_, rfl, rfl⟩
  unfold ExecutionTrace.fromGraphExecution
  rw [h]

/-- C9 witness: two executions with the same trace but different
outputs, hashes and confidences yield identical node-hash vectors. -/
theorem c9_execution_trace_only_depends_on_node_ids_witness :
    c9resA.trace = c9resB.trace ∧
    ((ExecutionTrace.fromGraphExecution c9resA).nodes =
        (ExecutionTrace.fromGraphExecution c9resB).nodes ∧
    (ExecutionTrace.fromGraphExecution c9resA).nodes =
      c9resA.trace.map (fun nodeId => ⟨sha256 (strBytes nodeId)⟩) ∧
    (ExecutionTrace.fromGraphExecution c9resA).cached = false) :=
  ⟨rfl, c9_execution_trace_only_depends_on_node_ids c9resA c9resB rfl⟩

/-- C10: installing a graph whose content hash is already present
returns `Ok` with that hash and leaves the registry unchanged, so the
name index is not extended and any name lookup is unaffected. -/
theorem c10_install_existing_hash_is_noop (reg : SkillRegistry) (name : String)
    (g : SkillGraph) (builtin : Bool) (now : Nat)
    (h : isInstalled reg g.contentHash = true) :
    installGraph reg name g builtin now = (.ok g.contentHash, reg) ∧
    (∀ nm, getByName (installGraph reg name g builtin now).2 nm = getByName reg nm) := by
  unfold isInstalled at h
  have hfirst : installGraph reg name g builtin now = (.ok g.contentHash, reg) := by
    unfold installGraph
    simp [h]
  exact ⟨hfirst, fun nm => by rw [hfirst]⟩

/-- C10 witness: re-installing `sampleSkill` (under a different name)
into the registry that already holds it is a no-op. -/
theorem c10_install_existing_hash_is_noop_witness :
    isInstalled c10reg sampleSkill.contentHash = true ∧
    (installGraph c10reg "othername" sampleSkill false 7 =
        (.ok sampleSkill.contentHash, c10reg) ∧
    (∀ nm, getByName (installGraph c10reg "othername" sampleSkill false 7).2 nm =
      getByName c10reg nm)) :=
  ⟨by decide,
   c10_install_existing_hash_is_noop c10reg "othername" sampleSkill false 7 (by decide)⟩

/-- C3. `Graph::topo_sort` implements Kahn's algorithm correctly for
well-formed graphs: with unique node ids and fully resolvable input
references, it succeeds exactly on acyclic graphs, and on success returns a
permutation of the nodes in which every edge source appears strictly before
its target. -/
theorem c3_topo_sort_correct (g : Graph) (huniq : g.UniqueIds)
    (hclosed : g.ClosedRefs) :
    (g.topoSort.isOk = true ↔ g.Acyclic) ∧
    (∀ res, g.topoSort = Except.ok res →
      res.Perm g.nodes ∧
      ∀ u v, g.edge u v → ∃ i j : Nat, i < j ∧
        (res.map GraphNode.id)[i]? = some u ∧
        (res.map GraphNode.id)[j]? = some v) := by
  obtain ⟨deg', hfin⟩ :=
    kahnLoop_inv huniq (g.nodes.length + 1)
      (((buildDeg g.nodes).keys.filter
        (fun k => (buildDeg g.nodes).deg k == some 0)).reverse)
      (buildDeg g.nodes).deg [] (kahnInv_init huniq) (by omega)
  set R := kahnLoop g (buildAdj g.nodes) (g.nodes.length + 1)
      (((buildDeg g.nodes).keys.filter
        (fun k => (buildDeg g.nodes).deg k == some 0)).reverse)
      (buildDeg g.nodes).deg [] with hRdef
  have hRnodup : (R.map GraphNode.id).Nodup := by
    have h1 := hfin.nodup
    simpa using h1
  have hRsub : R ⊆ g.nodes :=
    fun m hm => (getNode_mem (hfin.resultNodes m hm)).1
  have hRsubperm : R.Subperm g.nodes :=
    List.subperm_of_subset (List.Nodup.of_map GraphNode.id hRnodup) hRsub
  have hlen_le : R.length ≤ g.nodes.length := hRsubperm.length_le
  have hmem_iff : ∀ x, x ∈ g.nodes.map GraphNode.id →
      (x ∈ R.map GraphNode.id ↔ remCount g (R.map GraphNode.id) x = 0) := by
    intro x hx
    have h1 := hfin.zeroIff x hx
    simpa using h1
  have hperm : R.length = g.nodes.length → R.Perm g.nodes := by
    intro hlen
    exact hRsubperm.perm_of_length_le (by omega)
  have hordered : R.length = g.nodes.length → ∀ u v, g.edge u v →
      ∃ i j : Nat, i < j ∧ (R.map GraphNode.id)[i]? = some u ∧
        (R.map GraphNode.id)[j]? = some v := by
    intro hlen u v hedge
    have hv_ids : v ∈ g.nodes.map GraphNode.id := by
      obtain ⟨nv, hnv, hid, -⟩ := hedge
      rw [← hid]
      exact List.mem_map_of_mem GraphNode.id hnv
    have hvP : v ∈ R.map GraphNode.id :=
      (((hperm hlen).map GraphNode.id).mem_iff).mpr hv_ids
    obtain ⟨j, hjv⟩ := List.mem_iff_getElem?.mp hvP
    have hhc : headCount g u v ≠ 0 := (edge_iff_headCount huniq u v).mp hedge
    obtain ⟨i, hij, hiu⟩ := hfin.ordered j v hjv u hhc
    exact ⟨i, j, hij, hiu, hjv⟩
  have hacyc : R.length = g.nodes.length → g.Acyclic := by
    intro hlen v hcyc
    have hQ : ∀ a b, Relation.TransGen g.edge a b →
        ∃ i j : Nat, i < j ∧ (R.map GraphNode.id)[i]? = some a ∧
          (R.map GraphNode.id)[j]? = some b := by
      intro a b h
      induction h with
      | single h1 => exact hordered hlen _ _ h1
      | tail hab hbc ih =>
        obtain ⟨i, j, hij, hia, hjb⟩ := ih
        obtain ⟨i2, j2, hij2, hib, hjc⟩ := hordered hlen _ _ hbc
        have hjlen : j < (R.map GraphNode.id).length := by
          obtain ⟨hlt, -⟩ := List.getElem?_eq_some.mp hjb
          exact hlt
        have hji : j = i2 :=
          List.getElem?_inj hjlen hRnodup (by rw [hjb, hib])
        exact ⟨i, j2, by omega, hia, hjc⟩
    obtain ⟨i, j, hij, hia, hja⟩ := hQ v v hcyc
    have hilen : i < (R.map GraphNode.id).length := by
      obtain ⟨hlt, -⟩ := List.getElem?_eq_some.mp hia
      exact hlt
    have hieqj : i = j := List.getElem?_inj hilen hRnodup (by rw [hia, hja])
    omega
  have hcycle : R.length ≠ g.nodes.length →
      ∃ c, Relation.TransGen g.edge c c := by
    intro hlen
    have hmemS : ∀ x,
        (x ∈ (g.nodes.map GraphNode.id).filter
          (fun x => !(R.map GraphNode.id).contains x)) ↔
        (x ∈ g.nodes.map GraphNode.id ∧ x ∉ R.map GraphNode.id) := by
      intro x
      rw [List.mem_filter]
      simp
    have hSne : (g.nodes.map GraphNode.id).filter
        (fun x => !(R.map GraphNode.id).contains x) ≠ [] := by
      intro hnil
      have hsub2 : (g.nodes.map GraphNode.id) ⊆ R.map GraphNode.id := by
        intro x hx
        by_contra hc
        have hxS := (hmemS x).mpr ⟨hx, hc⟩
        rw [hnil] at hxS
        cases hxS
      have h1 : (g.nodes.map GraphNode.id).length ≤
          (R.map GraphNode.id).length :=
        (List.subperm_of_subset huniq hsub2).length_le
      simp only [List.length_map] at h1
      exact hlen (by omega)
    have hpred : ∀ v ∈ (g.nodes.map GraphNode.id).filter
        (fun x => !(R.map GraphNode.id).contains x),
        ∃ u ∈ (g.nodes.map GraphNode.id).filter
          (fun x => !(R.map GraphNode.id).contains x), g.edge u v := by
      intro v hv
      obtain ⟨hv_ids, hv_notP⟩ := (hmemS v).mp hv
      have hremv : remCount g (R.map GraphNode.id) v ≠ 0 := by
        intro h0
        exact hv_notP ((hmem_iff v hv_ids).mpr h0)
      obtain ⟨nv, hget, hid, hmem⟩ := getNode_of_mem_ids hv_ids
      have hnot : ¬ ∀ inp ∈ nv.inputs, headSegment inp ∈ R.map GraphNode.id := by
        intro hall
        exact hremv ((remCount_zero_iff_heads hget).mpr hall)
      push_neg at hnot
      obtain ⟨inp, hinp, hhead⟩ := hnot
      refine ⟨headSegment inp, ?_, ?_⟩
      · exact (hmemS _).mpr ⟨hclosed nv hmem inp hinp, hhead⟩
      · exact ⟨nv, hmem, hid, List.mem_map_of_mem headSegment hinp⟩
    exact cycle_of_pred hSne hpred
  refine ⟨⟨?_, ?_⟩, ?_⟩
  · intro hok
    by_cases hlen : R.length = g.nodes.length
    · exact hacyc hlen
    · exfalso
      rw [topoSort_eq g, ← hRdef, if_pos hlen] at hok
      cases hok
  · intro hacycl
    by_cases hlen : R.length = g.nodes.length
    · rw [topoSort_eq g, ← hRdef, if_neg (fun hc => hc hlen)]
      rfl
    · exfalso
      obtain ⟨c, hc⟩ := hcycle hlen
      exact hacycl c hc
  · intro res hres
    rw [topoSort_eq g, ← hRdef] at hres
    by_cases hlen : R.length = g.nodes.length
    · rw [if_neg (fun hc => hc hlen)] at hres
      injection hres with hres
      subst hres
      exact ⟨hperm hlen, hordered hlen⟩
    · rw [if_pos hlen] at hres
      cases hres

/-- Concrete witness: the three-node chain graph has unique ids and closed
references, so the correctness theorem applies to it. -/
theorem c3_topo_sort_correct_witness :
    chainGraph.UniqueIds ∧ chainGraph.ClosedRefs ∧
      (chainGraph.topoSort.isOk = true ↔ chainGraph.Acyclic) :=
  ⟨by unfold Graph.UniqueIds; decide, by unfold Graph.ClosedRefs; decide,
    (c3_topo_sort_correct chainGraph
      (by unfold Graph.UniqueIds; decide)
      (by unfold Graph.ClosedRefs; decide)).1⟩
end Zeroclaw
